import Mathlib

/-!
Shallow embedding of the timing wheel in `neqo-common/src/timer.rs`.

Modelling conventions:
* `Instant` and `Duration` are nanosecond counts, modelled as `Nat`.
  The code only subtracts instants when the left side is at least the
  right side (callers uphold `time >= self.now`); `Nat` subtraction
  saturates at zero exactly like `Instant::duration_since` on current
  Rust toolchains.
* Panics (`assert!`, out-of-bounds indexing, the unbounded tick loop on a
  zero-granularity or zero-capacity wheel) are modelled by returning
  `none` from the operation.
* Loops are modelled by structural recursion on an explicit bound.  The
  bound passed by each wrapper is a proven upper bound on the number of
  iterations the Rust loop performs, so the bound is never exhausted on
  states the theorems speak about; exhaustion is mapped to `none`
  (the same marker as a panic, and it only happens where the Rust loop
  would diverge or panic).
* `Vec::binary_search_by_key` is modelled by `bsGo`, a step-for-step
  translation of the standard library's binary search loop, so that the
  model returns the same index as the Rust code, including which element
  of a run of equal keys is hit.
-/

/-- Internal structure for a timer item: a due time and a payload
(`TimerItem` in the source). -/
structure TimerItem (T : Type) where
  time : Nat
  item : T
deriving DecidableEq, Repr

/-- A timer queue (`Timer` in the source): a circular array of buckets,
the window start `now`, the bucket width `granularity`, and the index
`cursor` of the bucket that starts at `now`. -/
structure Timer (T : Type) where
  items : List (List (TimerItem T))
  now : Nat
  granularity : Nat
  cursor : Nat
deriving DecidableEq, Repr

namespace Timer

variable {T : Type}

/-- Bucket at index `i`; the default `[]` is never used at in-bounds
indices. -/
def bucketAt (s : Timer T) (i : Nat) : List (TimerItem T) :=
  s.items.getD i []

/-- Construct a new wheel (`Timer::new`).  The two `assert!`s —
`u32::try_from(capacity).is_ok()` and `granularity.as_nanos() > 0` —
are modelled by returning `none`. -/
def new (T : Type) (now granularity capacity : Nat) : Option (Timer T) :=
  if capacity < 2 ^ 32 ∧ 0 < granularity then
    some ⟨List.replicate capacity [], now, granularity, 0⟩
  else none

/-- Return the time of the next entry (`Timer::next_time`), scanning the
buckets in rotation order from the cursor.  `i` is the loop variable,
`count` the number of remaining iterations (`len - i`). -/
def nextTimeF (s : Timer T) : Nat → Nat → Option Nat
  | _, 0 => none
  | i, count + 1 =>
    match (s.bucketAt ((s.cursor + i) % s.items.length)).head? with
    | some e => some e.time
    | none => nextTimeF s (i + 1) count

/-- Return the time of the next entry (`Timer::next_time`). -/
def nextTime (s : Timer T) : Option Nat :=
  nextTimeF s 0 s.items.length

/-- Slide forward in time by one granularity (`Timer::tick`).  The
`assert!(self.items[self.cursor].is_empty())` and the indexing panic on
an out-of-range cursor are modelled by `none`. -/
def tick (s : Timer T) : Option (Timer T) :=
  match s.items[s.cursor]? with
  | none => none
  | some b =>
    if b.isEmpty then
      some ⟨s.items, s.now + s.granularity, s.granularity,
            (s.cursor + 1) % s.items.length⟩
    else none

/-- Full span of time the wheel can cover (`Timer::span`):
`granularity * capacity`. -/
def span (s : Timer T) : Nat :=
  s.granularity * s.items.length

/-- Number of whole buckets `time` lies in the future (`Timer::delta`).
The `debug_assert!(delta < self.items.len())` is compiled out in release
builds and is not modelled. -/
def delta (s : Timer T) (time : Nat) : Nat :=
  (time - s.now) / s.granularity

/-- Outcome of `Vec::binary_search_by_key`: `found i` is `Ok(i)`,
`notFound i` is `Err(i)` with `i` the insertion point. -/
inductive SearchOutcome where
  | found : Nat → SearchOutcome
  | notFound : Nat → SearchOutcome
deriving DecidableEq, Repr

/-- Step-for-step model of the binary search loop of
`slice::binary_search_by` over the list of due times of one bucket.
`fuel` bounds the iteration count; the wrapper passes `length + 1`,
which always suffices because the window shrinks every iteration. -/
def bsGo (key : Nat) (ts : List Nat) : Nat → Nat → Nat → SearchOutcome
  | 0, left, _ => .notFound left
  | fuel + 1, left, right =>
    if left < right then
      let mid := left + (right - left) / 2
      let t := ts.getD mid 0
      if t < key then bsGo key ts fuel (mid + 1) right
      else if key < t then bsGo key ts fuel left mid
      else .found mid
    else .notFound left

/-- Model of `bucket.binary_search_by_key(&key, TimerItem::time)`,
applied to the bucket's list of due times. -/
def binSearch (key : Nat) (ts : List Nat) : SearchOutcome :=
  bsGo key ts (ts.length + 1) 0 ts.length

/-- Due times of a bucket, the keys the source's binary searches run
over. -/
def times (b : List (TimerItem T)) : List Nat :=
  b.map TimerItem.time

/-- Tick loop of `Timer::add`: `while time >= self.now + self.span() { self.tick(); }`.
`fuel` bounds the iterations; the wrapper passes `time - now + 1`, enough
because every successful tick advances `now` by `granularity ≥ 1`.
Exhaustion (`none`) only happens where the Rust loop panics in `tick` or
spins forever (granularity 0 cannot leave `new`). -/
def addTicks : Nat → Timer T → Nat → Option (Timer T)
  | 0, _, _ => none
  | fuel + 1, s, time =>
    if s.now + s.span ≤ time then
      match tick s with
      | some s2 => addTicks fuel s2 time
      | none => none
    else some s

/-- Fast-jump step of `Timer::add`: if `time` is at least
`now + span + short_span` (where `short_span = span - granularity`),
assert that every bucket is empty (modelled by `none` on violation) and
reset `now = time - short_span`, `cursor = 0`; otherwise leave the
wheel untouched. -/
def fastJump (s : Timer T) (time : Nat) : Option (Timer T) :=
  if s.now + s.span + (s.span - s.granularity) ≤ time then
    if s.items.all List.isEmpty then
      some ⟨s.items, time - (s.span - s.granularity), s.granularity, 0⟩
    else none
  else some s

/-- Ordered insertion step of `Timer::add`: compute the destination
bucket from the time delta and insert at the index returned by the
binary search (`Ok` and `Err` both yield an insertion index). -/
def insertAt (s : Timer T) (time : Nat) (item : T) : Timer T :=
  let bi := (s.cursor + s.delta time) % s.items.length
  let b := s.bucketAt bi
  let ins :=
    match binSearch time (times b) with
    | .found j => j
    | .notFound j => j
  ⟨s.items.set bi (b.insertIdx ins ⟨time, item⟩), s.now, s.granularity, s.cursor⟩

/-- Add an entry (`Timer::add`): assert `time >= now` (modelled by
`none`), fast-jump if needed, tick until `time < now + span`, then
insert into the destination bucket. -/
def add (s : Timer T) (time : Nat) (item : T) : Option (Timer T) :=
  if time < s.now then none
  else
    match fastJump s time with
    | none => none
    | some s1 =>
      match addTicks (time - s1.now + 1) s1 time with
      | none => none
      | some s2 => some (insertAt s2 time item)

/-- Scan a run of items that all carry due time `time`, in the order the
given list presents them, and return the offset of the first item whose
payload satisfies `sel`.  Stops at the first item with a different due
time, exactly like the `break` in the two scan loops of
`Timer::remove`. -/
def runFind (time : Nat) (sel : T → Bool) : List (TimerItem T) → Option Nat
  | [] => none
  | e :: rest =>
    if e.time ≠ time then none
    else if sel e.item then some 0
    else (runFind time sel rest).map (· + 1)

/-- Index search of `Timer::remove` inside the addressed bucket: binary
search for the due time, then scan the run of equal due times backward
(indices `start, start-1, …, 0`, presented by
`(b.take (start+1)).reverse`) and then forward (indices
`start+1, …, len-1`, presented by `b.drop (start+1)`), looking for a
payload accepted by the selector.  Both scans stop at the first
different due time, as the source loops do via `break`. -/
def removeHit (b : List (TimerItem T)) (time : Nat) (sel : T → Bool) : Option Nat :=
  match binSearch time (times b) with
  | .notFound _ => none
  | .found start =>
    match runFind time sel ((b.take (start + 1)).reverse) with
    | some j => some (start - j)
    | none => (runFind time sel (b.drop (start + 1))).map (start + 1 + ·)

/-- Remove an entry with the given due time whose payload satisfies the
selector (`Timer::remove`).  Returns the removed payload (if any)
together with the new wheel state. -/
def remove (s : Timer T) (time : Nat) (sel : T → Bool) : Option T × Timer T :=
  let bi := (s.cursor + s.delta time) % s.items.length
  let b := s.bucketAt bi
  match removeHit b time sel with
  | none => (none, s)
  | some idx =>
    match b[idx]? with
    | some e => (some e.item, ⟨s.items.set bi (b.eraseIdx idx),
                               s.now, s.granularity, s.cursor⟩)
    | none => (none, s)

/-- Loop of `Timer::take_next`.  `fuel` bounds the iterations; the
wrapper passes `until - now + 1`, enough because every tick advances
`now` by `granularity ≥ 1` and ticking requires `now + granularity < until`.
The outer `none` marks a panic (the tick assertion, indexing a
zero-capacity wheel) or the divergence of a zero-granularity loop; the
inner `none` is the normal nothing-is-due result. -/
def takeNextF : Nat → Timer T → Nat → Option (Option T × Timer T)
  | 0, _, _ => none
  | fuel + 1, s, u =>
    match s.items[s.cursor]? with
    | none => none
    | some [] =>
      if s.now + s.granularity < u then
        match tick s with
        | some s2 => takeNextF fuel s2 u
        | none => none
      else some (none, s)
    | some (e :: rest) =>
      if e.time ≤ u then
        some (some e.item, ⟨s.items.set s.cursor rest,
                            s.now, s.granularity, s.cursor⟩)
      else
        if s.now + s.granularity < u then
          match tick s with
          | some s2 => takeNextF fuel s2 u
          | none => none
        else some (none, s)

/-- Take the next item due at or before `u` (`Timer::take_next`). -/
def takeNext (s : Timer T) (u : Nat) : Option (Option T × Timer T) :=
  takeNextF (u - s.now + 1) s u

/-- Whole-bucket loop of the partial-drain path of `Timer::take_until`:
`delta` times, the cursor bucket is replaced by an empty one
(`mem::replace`) and the wheel is ticked.  The tick's emptiness
assertion always holds here because the bucket was just emptied, so the
only panic modelled is the out-of-bounds index of a zero-capacity
wheel. -/
def drainLoop : Nat → Timer T → Option (List (List (TimerItem T)) × Timer T)
  | 0, s => some ([], s)
  | d + 1, s =>
    match s.items[s.cursor]? with
    | none => none
    | some b =>
      let s2 : Timer T := ⟨s.items.set s.cursor [], s.now + s.granularity,
                           s.granularity, (s.cursor + 1) % s.items.length⟩
      (drainLoop d s2).map (fun p => (b :: p.1, p.2))

/-- The `while m < bucket.len() && bucket[m].time == until { m += 1 }`
loop that advances the split point past the run of entries due exactly
at `until`.  `fuel` bounds the iterations; `length + 1` always
suffices. -/
def skipRun (u : Nat) (ts : List Nat) : Nat → Nat → Nat
  | 0, m => m
  | fuel + 1, m =>
    if m < ts.length ∧ ts.getD m 0 = u then skipRun u ts fuel (m + 1)
    else m

/-- Take all items due at or before `u` (`Timer::take_until`),
materialised eagerly: the source also excises every affected bucket from
the wheel before handing the iterator to the caller, so the state
returned here is the wheel's state no matter how much of the iterator is
consumed.  On the full-drain path the source resets `self.cursor` to 0
and only then calls `items.split_off(self.cursor)`, so the split happens
at index 0, not at the pre-call cursor; this is modelled verbatim. -/
def takeUntil (s : Timer T) (u : Nat) : Option (List T × Timer T) :=
  if s.now + s.span ≤ u then
    let old := s.items
    let s2 : Timer T := ⟨List.replicate s.items.length [], u, s.granularity, 0⟩
    let tail := old.drop s2.cursor
    let head := old.take s2.cursor
    some ((tail ++ head).flatten.map TimerItem.item, s2)
  else
    match drainLoop (s.delta u) s with
    | none => none
    | some (bs, s2) =>
      match s2.items[s2.cursor]? with
      | none => none
      | some b =>
        let lastIdx :=
          match binSearch u (times b) with
          | .found m => skipRun u (times b) (b.length + 1) m
          | .notFound ins => ins
        let tail := b.drop lastIdx
        let head := b.take lastIdx
        some ((bs ++ [head]).flatten.map TimerItem.item,
              ⟨s2.items.set s2.cursor tail, s2.now, s2.granularity, s2.cursor⟩)

/-- Entries currently stored in the wheel, bucket by bucket. -/
def storedEntries (s : Timer T) : List (TimerItem T) :=
  s.items.flatten

/-- Due times of the currently stored entries. -/
def storedTimes (s : Timer T) : List Nat :=
  (storedEntries s).map TimerItem.time

/-- Bucket-placement part of the data-model invariant: every stored
entry sits in the bucket addressed by its time delta, is not in the
past, and is within the representable window. -/
def Placed (s : Timer T) : Prop :=
  ∀ i, i < s.items.length → ∀ e ∈ s.bucketAt i,
    s.now ≤ e.time ∧ e.time < s.now + s.span ∧
    i = (s.cursor + s.delta e.time) % s.items.length

/-- Order part of the data-model invariant: every bucket is sorted
ascending by due time. -/
def SortedBuckets (s : Timer T) : Prop :=
  ∀ i, i < s.items.length → (s.bucketAt i).Pairwise (fun a b => a.time ≤ b.time)

/-- Data-model invariant of the wheel, as maintained by every public
operation on every wheel a caller can reach. -/
def Inv (s : Timer T) : Prop :=
  0 < s.items.length ∧ 0 < s.granularity ∧ s.cursor < s.items.length ∧
    Placed s ∧ SortedBuckets s

instance (s : Timer T) : Decidable (Placed s) := by
  unfold Placed
  infer_instance

instance (s : Timer T) : Decidable (SortedBuckets s) := by
  unfold SortedBuckets
  infer_instance

instance (s : Timer T) : Decidable (Inv s) := by
  unfold Inv
  infer_instance

/-- Fold a list of `add` calls over a freshly constructed wheel;
`none` if construction or any `add` panics. -/
def addSequence (T : Type) (now granularity capacity : Nat)
    (ops : List (Nat × T)) : Option (Timer T) :=
  ops.foldl (fun acc p => acc.bind (fun s => s.add p.1 p.2))
    (Timer.new T now granularity capacity)

/-! Generic list and arithmetic lemmas used throughout. -/

theorem flatten_set_perm {α : Type} (l : List (List α)) (i : Nat) (b : List α) :
    i < l.length → ((l.set i b).flatten).Perm (b ++ (l.set i []).flatten) := by
  induction l generalizing i with
  | nil => intro h; simp at h
  | cons hd tl ih =>
    intro h
    cases i with
    | zero =>
      simp only [List.set_cons_zero, List.flatten_cons]
      exact List.Perm.refl _
    | succ n =>
      have hn : n < tl.length := by simpa using h
      simp only [List.set_cons_succ, List.flatten_cons]
      refine (List.Perm.append_left hd (ih n hn)).trans ?_
      rw [← List.append_assoc, ← List.append_assoc]
      exact List.Perm.append_right _ List.perm_append_comm

/-- A list is a permutation of any one of its cells prepended to the
list with that cell cleared. -/
theorem flatten_perm_bucket {α : Type} (l : List (List α)) (i : Nat) :
    i < l.length → l.flatten.Perm (l.getD i [] ++ (l.set i []).flatten) := by
  induction l generalizing i with
  | nil => intro h; simp at h
  | cons hd tl ih =>
    intro h
    cases i with
    | zero =>
      simp only [List.getD_cons_zero, List.set_cons_zero, List.flatten_cons]
      exact List.Perm.refl _
    | succ n =>
      have hn : n < tl.length := by simpa using h
      simp only [List.getD_cons_succ, List.set_cons_succ, List.flatten_cons]
      refine (List.Perm.append_left hd (ih n hn)).trans ?_
      rw [← List.append_assoc, ← List.append_assoc]
      exact List.Perm.append_right _ List.perm_append_comm

theorem insertIdx_perm_cons {α : Type} (l : List α) (n : Nat) (x : α) :
    n ≤ l.length → (l.insertIdx n x).Perm (x :: l) := by
  induction l generalizing n with
  | nil =>
    intro h
    have h0 : n = 0 := Nat.le_zero.mp (by simpa using h)
    subst h0
    simp
  | cons hd tl ih =>
    intro h
    cases n with
    | zero => simp
    | succ m =>
      have hm : m ≤ tl.length := by simpa using h
      rw [List.insertIdx_succ_cons]
      exact (List.Perm.cons hd (ih m hm)).trans (List.Perm.swap x hd tl)

theorem eraseIdx_perm_cons {α : Type} (l : List α) (i : Nat) (hi : i < l.length) :
    l.Perm (l[i] :: l.eraseIdx i) := by
  conv_lhs => rw [← List.take_append_drop i l, List.drop_eq_getElem_cons hi]
  rw [List.eraseIdx_eq_take_drop_succ]
  exact List.perm_middle

theorem pairwise_insertIdx {α : Type} {R : α → α → Prop} (l : List α) (n : Nat) (x : α)
    (hn : n ≤ l.length)
    (h1 : ∀ i, (hi : i < l.length) → i < n → R l[i] x)
    (h2 : ∀ i, (hi : i < l.length) → n ≤ i → R x l[i])
    (hp : l.Pairwise R) : (l.insertIdx n x).Pairwise R := by
  induction l generalizing n with
  | nil =>
    have h0 : n = 0 := Nat.le_zero.mp (by simpa using hn)
    subst h0
    simp
  | cons hd tl ih =>
    cases n with
    | zero =>
      rw [List.insertIdx_zero, List.pairwise_cons]
      refine ⟨?_, hp⟩
      intro y hy
      rcases List.mem_iff_getElem.mp hy with ⟨j, hj, rfl⟩
      exact h2 j hj (Nat.zero_le j)
    | succ m =>
      have hm : m ≤ tl.length := by simpa using hn
      rw [List.insertIdx_succ_cons, List.pairwise_cons]
      rw [List.pairwise_cons] at hp
      constructor
      · intro y hy
        rcases (List.mem_insertIdx hm).mp hy with rfl | hy2
        · exact h1 0 (by simp) (Nat.succ_pos m)
        · exact hp.1 y hy2
      · refine ih m hm ?_ ?_ hp.2
        · intro i hi hilt
          have := h1 (i + 1) (by simpa using Nat.succ_lt_succ hi) (Nat.succ_lt_succ hilt)
          simpa using this
        · intro i hi hile
          have := h2 (i + 1) (by simpa using Nat.succ_lt_succ hi) (Nat.succ_le_succ hile)
          simpa using this

theorem add_mod_inj_of_lt {n a d j : Nat} (hd : d < n) (hj : j < n)
    (h : (a + d) % n = (a + j) % n) : d = j := by
  have h2 : d ≡ j [MOD n] := Nat.ModEq.add_left_cancel' a h
  have h3 : d % n = j % n := h2
  rwa [Nat.mod_eq_of_lt hd, Nat.mod_eq_of_lt hj] at h3

theorem rot_surjective {n c b : Nat} (hc : c < n) (hb : b < n) :
    ∃ i, i < n ∧ (c + i) % n = b := by
  refine ⟨(n + b - c) % n, Nat.mod_lt _ (Nat.lt_of_le_of_lt (Nat.zero_le c) hc), ?_⟩
  rw [Nat.add_mod_mod]
  have h1 : c + (n + b - c) = b + n := by omega
  rw [h1, Nat.add_mod_right, Nat.mod_eq_of_lt hb]

/-- Division shifts down by one when the dividend shrinks by the
divisor. -/
theorem div_sub_self {x g : Nat} (hg : 0 < g) (hx : g ≤ x) :
    (x - g) / g = x / g - 1 := by
  have h1 : x / g * g ≤ x := Nat.div_mul_le_self x g
  have h2 : x < (x / g + 1) * g := by
    have := (Nat.div_lt_iff_lt_mul hg (x := x) (y := x / g + 1)).mp (Nat.lt_succ_self _)
    exact this
  have hq : 1 ≤ x / g := (Nat.one_le_div_iff hg).mpr hx
  rw [Nat.succ_mul] at h2
  refine Nat.div_eq_of_lt_le ?_ ?_
  · rw [Nat.sub_mul, Nat.one_mul]
    omega
  · rw [Nat.sub_add_cancel hq]
    omega

/-! Lemmas about the binary search model. -/

theorem sorted_getD_mono {ts : List Nat} (hs : ts.Pairwise (· ≤ ·)) {i j : Nat}
    (hj : j < ts.length) (hij : i ≤ j) : ts.getD i 0 ≤ ts.getD j 0 := by
  have hi : i < ts.length := Nat.lt_of_le_of_lt hij hj
  rw [List.getD_eq_getElem ts 0 hi, List.getD_eq_getElem ts 0 hj]
  rcases Nat.lt_or_ge i j with h | h
  · exact List.pairwise_iff_getElem.mp hs i j hi hj h
  · have : i = j := Nat.le_antisymm hij h
    subst this
    exact Nat.le_refl _

theorem bsGo_found {key : Nat} {ts : List Nat} :
    ∀ fuel left right m, right ≤ ts.length → bsGo key ts fuel left right = .found m →
      m < ts.length ∧ ts.getD m 0 = key := by
  intro fuel
  induction fuel with
  | zero => intro left right m _ h; simp [bsGo] at h
  | succ fuel ih =>
    intro left right m hr h
    rw [bsGo] at h
    by_cases hlr : left < right
    · simp only [hlr, if_true] at h
      set mid := left + (right - left) / 2 with hmid
      by_cases h1 : ts.getD mid 0 < key
      · simp only [h1, if_true] at h
        exact ih _ _ _ hr h
      · simp only [h1, if_false] at h
        by_cases h2 : key < ts.getD mid 0
        · simp only [h2, if_true] at h
          exact ih _ _ _ (by omega) h
        · simp only [h2, if_false] at h
          injection h with h3
          subst h3
          constructor
          · omega
          · omega
    · simp [hlr] at h

theorem bsGo_notFound {key : Nat} {ts : List Nat} (hs : ts.Pairwise (· ≤ ·)) :
    ∀ fuel left right ins, right ≤ ts.length → left ≤ right → right - left < fuel →
      bsGo key ts fuel left right = .notFound ins →
      left ≤ ins ∧ ins ≤ right ∧
        (∀ i, left ≤ i → i < ins → ts.getD i 0 < key) ∧
        (∀ i, ins ≤ i → i < right → key < ts.getD i 0) := by
  intro fuel
  induction fuel with
  | zero => intro left right ins _ _ hf; omega
  | succ fuel ih =>
    intro left right ins hr hlr2 hf h
    rw [bsGo] at h
    by_cases hlr : left < right
    · simp only [hlr, if_true] at h
      set mid := left + (right - left) / 2 with hmid
      have hmlt : mid < right := by omega
      have hmge : left ≤ mid := by omega
      have hmlen : mid < ts.length := by omega
      by_cases h1 : ts.getD mid 0 < key
      · simp only [h1, if_true] at h
        have hrec := ih (mid + 1) right ins hr (by omega) (by omega) h
        refine ⟨by omega, hrec.2.1, ?_, hrec.2.2.2⟩
        intro i hi1 hi2
        rcases Nat.lt_or_ge i (mid + 1) with hc | hc
        · exact Nat.lt_of_le_of_lt (sorted_getD_mono hs hmlen (by omega)) h1
        · exact hrec.2.2.1 i hc hi2
      · simp only [h1, if_false] at h
        by_cases h2 : key < ts.getD mid 0
        · simp only [h2, if_true] at h
          have hrec := ih left mid ins (by omega) hmge (by omega) h
          refine ⟨hrec.1, by omega, hrec.2.2.1, ?_⟩
          intro i hi1 hi2
          rcases Nat.lt_or_ge i mid with hc | hc
          · exact hrec.2.2.2 i hi1 hc
          · have hilen : i < ts.length := by omega
            exact Nat.lt_of_lt_of_le h2 (sorted_getD_mono hs hilen hc)
        · simp only [h2, if_false] at h
          cases h
    · rw [if_neg hlr] at h
      injection h with h3
      subst h3
      refine ⟨Nat.le_refl _, hlr2, ?_, ?_⟩
      · intro i hi1 hi2; omega
      · intro i hi1 hi2; omega

theorem binSearch_found {key : Nat} {ts : List Nat} {m : Nat}
    (h : binSearch key ts = .found m) : m < ts.length ∧ ts.getD m 0 = key :=
  bsGo_found _ 0 ts.length m (Nat.le_refl _) h

theorem binSearch_notFound {key : Nat} {ts : List Nat} {ins : Nat}
    (hs : ts.Pairwise (· ≤ ·)) (h : binSearch key ts = .notFound ins) :
    ins ≤ ts.length ∧ (∀ i, i < ins → ts.getD i 0 < key) ∧
      (∀ i, ins ≤ i → i < ts.length → key < ts.getD i 0) := by
  have hrec := bsGo_notFound hs (ts.length + 1) 0 ts.length ins (Nat.le_refl _)
    (Nat.zero_le _) (by omega) h
  exact ⟨hrec.2.1, fun i hi => hrec.2.2.1 i (Nat.zero_le _) hi, hrec.2.2.2⟩

/-- If the key occurs in a sorted list, the binary search finds an
occurrence. -/
theorem binSearch_found_of_mem {key : Nat} {ts : List Nat}
    (hs : ts.Pairwise (· ≤ ·)) (hmem : key ∈ ts) :
    ∃ m, binSearch key ts = .found m := by
  cases hb : binSearch key ts with
  | found m => exact ⟨m, rfl⟩
  | notFound ins =>
    exfalso
    rcases List.mem_iff_getElem.mp hmem with ⟨j, hj, hjv⟩
    have hjd : ts.getD j 0 = key := by rw [List.getD_eq_getElem ts 0 hj, hjv]
    have hn := binSearch_notFound hs hb
    rcases Nat.lt_or_ge j ins with hc | hc
    · have := hn.2.1 j hc
      omega
    · have := hn.2.2 j hc hj
      omega

/-- Insertion index used by `add` (either arm of the match): it is a
valid index and it separates times `≤ key` from times `≥ key`. -/
theorem binSearch_insPoint {key : Nat} {ts : List Nat}
    (hs : ts.Pairwise (· ≤ ·)) :
    ∀ ins, (match binSearch key ts with
            | .found j => j
            | .notFound j => j) = ins →
      ins ≤ ts.length ∧ (∀ i, i < ins → i < ts.length → ts.getD i 0 ≤ key) ∧
        (∀ i, ins ≤ i → i < ts.length → key ≤ ts.getD i 0) := by
  intro ins h
  cases hb : binSearch key ts with
  | found m =>
    rw [hb] at h
    cases h
    have hf := binSearch_found hb
    refine ⟨Nat.le_of_lt hf.1, ?_, ?_⟩
    · intro i hi hilen
      rw [← hf.2]
      exact sorted_getD_mono hs hf.1 (Nat.le_of_lt hi)
    · intro i hi hilen
      rw [← hf.2]
      exact sorted_getD_mono hs hilen hi
  | notFound j =>
    rw [hb] at h
    cases h
    have hn := binSearch_notFound hs hb
    exact ⟨hn.1, fun i hi _ => Nat.le_of_lt (hn.2.1 i hi),
      fun i hi hilen => Nat.le_of_lt (hn.2.2 i hi hilen)⟩

/-! Lemmas about the split-point run scan of `take_until`. -/

theorem skipRun_spec (u : Nat) (ts : List Nat) :
    ∀ fuel m, ts.length < fuel + m →
      m ≤ skipRun u ts fuel m ∧
        (∀ i, m ≤ i → i < skipRun u ts fuel m → ts.getD i 0 = u) ∧
        (skipRun u ts fuel m < ts.length → ts.getD (skipRun u ts fuel m) 0 ≠ u) ∧
        (m ≤ ts.length → skipRun u ts fuel m ≤ ts.length) := by
  intro fuel
  induction fuel with
  | zero =>
    intro m hm
    rw [skipRun]
    refine ⟨Nat.le_refl _, ?_, ?_, ?_⟩
    · intro i h1 h2; omega
    · intro h; omega
    · intro h; exact h
  | succ fuel ih =>
    intro m hm
    rw [skipRun]
    by_cases hc : m < ts.length ∧ ts.getD m 0 = u
    · rw [if_pos hc]
      obtain ⟨ha, hb, hcc, hd⟩ := ih (m + 1) (by omega)
      refine ⟨by omega, ?_, hcc, ?_⟩
      · intro i h1 h2
        rcases Nat.lt_or_ge i (m + 1) with h3 | h3
        · have : i = m := by omega
          subst this
          exact hc.2
        · exact hb i h3 h2
      · intro _
        exact hd (by omega)
    · rw [if_neg hc]
      refine ⟨Nat.le_refl _, ?_, ?_, ?_⟩
      · intro i h1 h2; omega
      · intro h
        intro habs
        exact hc ⟨h, habs⟩
      · intro h; exact h

/-! Lemmas about the run scans of `remove`. -/

theorem runFind_some {time : Nat} {sel : T → Bool} :
    ∀ (l : List (TimerItem T)) j, runFind time sel l = some j →
      ∃ h : j < l.length, l[j].time = time ∧ sel l[j].item = true := by
  intro l
  induction l with
  | nil => intro j h; simp [runFind] at h
  | cons e rest ih =>
    intro j h
    rw [runFind] at h
    by_cases h1 : e.time ≠ time
    · simp [h1] at h
    · simp only [h1, if_false] at h
      by_cases h2 : sel e.item
      · simp only [h2, if_true, Option.some_inj] at h
        subst h
        exact ⟨by simp, by simpa using h1, h2⟩
      · simp only [h2, if_false] at h
        cases hr : runFind time sel rest with
        | none => rw [hr] at h; simp at h
        | some j2 =>
          rw [hr] at h
          simp at h
          subst h
          rcases ih j2 hr with ⟨hlt, hp1, hp2⟩
          exact ⟨by simpa using Nat.succ_lt_succ hlt, by simpa using hp1, by simpa using hp2⟩

theorem runFind_none {time : Nat} {sel : T → Bool} :
    ∀ (l : List (TimerItem T)), runFind time sel l = none →
      ∀ j, (hj : j < l.length) → (∀ k, (hk : k < l.length) → k ≤ j → l[k].time = time) →
        sel l[j].item = false := by
  intro l
  induction l with
  | nil => intro _ j hj; simp at hj
  | cons e rest ih =>
    intro h j hj hrun
    rw [runFind] at h
    by_cases h1 : e.time ≠ time
    · exfalso
      exact h1 (hrun 0 (by simp) (Nat.zero_le j))
    · simp only [h1, if_false] at h
      by_cases h2 : sel e.item
      · simp [h2] at h
      · simp only [h2, if_false] at h
        cases j with
        | zero => simpa using Bool.of_not_eq_true h2
        | succ j2 =>
          have hr : runFind time sel rest = none := by
            cases hx : runFind time sel rest with
            | none => rfl
            | some v => rw [hx] at h; simp at h
          have hj2 : j2 < rest.length := by simpa using hj
          have := ih hr j2 hj2 ?_
          · simpa using this
          · intro k hk hkle
            have := hrun (k + 1) (by simpa using Nat.succ_lt_succ hk) (Nat.succ_le_succ hkle)
            simpa using this

/-! Facts that follow from the data-model invariant. -/

theorem getD_set_self {α : Type} (l : List α) (i : Nat) (a d : α) (h : i < l.length) :
    (l.set i a).getD i d = a := by
  rw [List.getD_eq_getElem?_getD, List.getElem?_set_self (by simpa using h)]
  rfl

theorem getD_set_ne {α : Type} (l : List α) {i j : Nat} (a d : α) (h : i ≠ j) :
    (l.set i a).getD j d = l.getD j d := by
  rw [List.getD_eq_getElem?_getD, List.getElem?_set_ne h, ← List.getD_eq_getElem?_getD]

theorem mem_stored_iff {s : Timer T} {e : TimerItem T} :
    e ∈ storedEntries s ↔ ∃ i, i < s.items.length ∧ e ∈ s.bucketAt i := by
  rw [storedEntries, List.mem_flatten]
  constructor
  · rintro ⟨l, hl, hel⟩
    rcases List.mem_iff_getElem.mp hl with ⟨i, hi, rfl⟩
    exact ⟨i, hi, by rwa [bucketAt, List.getD_eq_getElem _ _ hi]⟩
  · rintro ⟨i, hi, hel⟩
    refine ⟨s.items[i], List.getElem_mem hi, ?_⟩
    rwa [bucketAt, List.getD_eq_getElem _ _ hi] at hel

theorem delta_lt_of_window {s : Timer T} (hlen : 0 < s.items.length)
    (hg : 0 < s.granularity) {t : Nat}
    (hw : t < s.now + s.span) : s.delta t < s.items.length := by
  rw [delta, Nat.div_lt_iff_lt_mul hg]
  rw [span, Nat.mul_comm] at hw
  have hpos : 0 < s.items.length * s.granularity := Nat.mul_pos hlen hg
  omega

/-- Every stored entry of an invariant-satisfying wheel lies at a known
rotation distance from the cursor, with its due time inside that
bucket's sub-interval. -/
theorem mem_stored_rot {s : Timer T} (hInv : Inv s) {e : TimerItem T}
    (he : e ∈ storedEntries s) :
    s.delta e.time < s.items.length ∧
      e ∈ s.bucketAt ((s.cursor + s.delta e.time) % s.items.length) ∧
      s.now ≤ e.time ∧ e.time < s.now + s.span := by
  obtain ⟨hlen, hg, hcur, hplaced, _⟩ := hInv
  rcases mem_stored_iff.mp he with ⟨i, hi, hei⟩
  obtain ⟨h1, h2, h3⟩ := hplaced i hi e hei
  refine ⟨delta_lt_of_window hlen hg h2, ?_, h1, h2⟩
  rwa [← h3]

/-- Entries found in the bucket at rotation distance `j` have time delta
exactly `j` and due time within that bucket's interval. -/
theorem rot_entry_bounds {s : Timer T} (hInv : Inv s) {j : Nat}
    (hj : j < s.items.length) {e : TimerItem T}
    (he : e ∈ s.bucketAt ((s.cursor + j) % s.items.length)) :
    s.delta e.time = j ∧ s.now + j * s.granularity ≤ e.time ∧
      e.time < s.now + (j + 1) * s.granularity := by
  obtain ⟨hlen, hg, hcur, hplaced, _⟩ := hInv
  have hilt : (s.cursor + j) % s.items.length < s.items.length := Nat.mod_lt _ hlen
  obtain ⟨h1, h2, h3⟩ := hplaced _ hilt e he
  have hdlt : s.delta e.time < s.items.length := delta_lt_of_window hlen hg h2
  have hdj : s.delta e.time = j := add_mod_inj_of_lt hdlt hj h3.symm
  refine ⟨hdj, ?_, ?_⟩
  · have : j ≤ (e.time - s.now) / s.granularity := by rw [← delta, hdj]
    have := (Nat.le_div_iff_mul_le hg).mp this
    omega
  · have : (e.time - s.now) / s.granularity < j + 1 := by rw [← delta, hdj]; omega
    have := (Nat.div_lt_iff_lt_mul hg).mp this
    omega

/-- Entries in the cursor bucket lie in `[now, now + granularity)`. -/
theorem cursor_entry_bounds {s : Timer T} (hInv : Inv s) {e : TimerItem T}
    (he : e ∈ s.bucketAt s.cursor) :
    s.delta e.time = 0 ∧ s.now ≤ e.time ∧ e.time < s.now + s.granularity := by
  obtain ⟨hlen, hg, hcur, hplaced, hsorted⟩ := hInv
  have h0 : (s.cursor + 0) % s.items.length = s.cursor := by
    rw [Nat.add_zero, Nat.mod_eq_of_lt hcur]
  have := rot_entry_bounds ⟨hlen, hg, hcur, hplaced, hsorted⟩
    (j := 0) hlen (e := e) (by rwa [h0])
  obtain ⟨hplaced2, _, _⟩ := hplaced s.cursor hcur e he
  refine ⟨this.1, hplaced2, ?_⟩
  have := this.2.2
  omega

/-- Entries outside the cursor bucket are at least one granularity in
the future. -/
theorem noncursor_entry_late {s : Timer T} (hInv : Inv s) {i : Nat}
    (hi : i < s.items.length) (hne : i ≠ s.cursor) {e : TimerItem T}
    (he : e ∈ s.bucketAt i) : s.now + s.granularity ≤ e.time := by
  obtain ⟨hlen, hg, hcur, hplaced, _⟩ := hInv
  obtain ⟨h1, h2, h3⟩ := hplaced i hi e he
  have hdlt : s.delta e.time < s.items.length := delta_lt_of_window hlen hg h2
  have hd1 : 1 ≤ s.delta e.time := by
    by_contra hd0
    have : s.delta e.time = 0 := by omega
    rw [this, Nat.add_zero, Nat.mod_eq_of_lt hcur] at h3
    exact hne h3
  rw [delta] at hd1
  have := (Nat.le_div_iff_mul_le hg).mp hd1
  omega

/-- A successful tick from a state with an empty cursor bucket, and the
invariant it preserves. -/
theorem tick_spec {s : Timer T} (hInv : Inv s) (hemp : s.bucketAt s.cursor = []) :
    tick s = some ⟨s.items, s.now + s.granularity, s.granularity,
        (s.cursor + 1) % s.items.length⟩ ∧
      Inv ⟨s.items, s.now + s.granularity, s.granularity,
        (s.cursor + 1) % s.items.length⟩ := by
  obtain ⟨hlen, hg, hcur, hplaced, hsorted⟩ := hInv
  have hb : s.items[s.cursor]? = some (s.bucketAt s.cursor) := by
    rw [bucketAt, List.getD_eq_getElem _ _ hcur]
    exact List.getElem?_eq_getElem hcur
  constructor
  · rw [tick, hb, hemp]
    simp
  · refine ⟨hlen, hg, Nat.mod_lt _ hlen, ?_, ?_⟩
    · intro i hi e he
      have hei : e ∈ s.bucketAt i := he
      obtain ⟨h1, h2, h3⟩ := hplaced i hi e hei
      have hne : i ≠ s.cursor := by
        intro habs
        rw [habs, hemp] at hei
        simp at hei
      have hlate : s.now + s.granularity ≤ e.time :=
        noncursor_entry_late ⟨hlen, hg, hcur, hplaced, hsorted⟩ hi hne hei
      have hd1 : 1 ≤ s.delta e.time := by
        rw [delta]
        rw [Nat.le_div_iff_mul_le hg]
        omega
      refine ⟨by simpa using hlate, ?_, ?_⟩
      · show e.time < s.now + s.granularity + span ⟨s.items, _, _, _⟩
        have hsp : span ⟨s.items, s.now + s.granularity, s.granularity,
            (s.cursor + 1) % s.items.length⟩ = s.span := rfl
        rw [hsp]
        rw [span] at h2 ⊢
        omega
      · show i = ((s.cursor + 1) % s.items.length +
          delta ⟨s.items, s.now + s.granularity, s.granularity, _⟩ e.time) %
            s.items.length
        have hde : delta ⟨s.items, s.now + s.granularity, s.granularity,
            (s.cursor + 1) % s.items.length⟩ e.time = s.delta e.time - 1 := by
          show (e.time - (s.now + s.granularity)) / s.granularity = _
          have hx : e.time - (s.now + s.granularity) = (e.time - s.now) - s.granularity := by
            omega
          rw [hx, div_sub_self hg (by omega)]
          rfl
        rw [hde, Nat.mod_add_mod]
        have hy : s.cursor + 1 + (s.delta e.time - 1) = s.cursor + s.delta e.time := by
          omega
        rw [hy]
        exact h3
    · intro i hi
      exact hsorted i hi

/-- Replacing one bucket by a sublist of itself preserves the
invariant. -/
theorem inv_set_sublist {s : Timer T} (hInv : Inv s) {i : Nat} (hi : i < s.items.length)
    {l' : List (TimerItem T)} (hsub : l'.Sublist (s.bucketAt i)) :
    Inv ⟨s.items.set i l', s.now, s.granularity, s.cursor⟩ := by
  obtain ⟨hlen, hg, hcur, hplaced, hsorted⟩ := hInv
  have hlen2 : (s.items.set i l').length = s.items.length := List.length_set _ _ _
  refine ⟨?_, hg, ?_, ?_, ?_⟩
  · show 0 < (s.items.set i l').length
    omega
  · show s.cursor < (s.items.set i l').length
    omega
  · intro j hj e he
    have hj2 : j < s.items.length := by
      have : j < (s.items.set i l').length := hj
      omega
    replace hj := hj2
    have hb : bucketAt ⟨s.items.set i l', s.now, s.granularity, s.cursor⟩ j =
        (s.items.set i l').getD j [] := rfl
    have hme : e ∈ s.bucketAt j := by
      rcases Decidable.em (i = j) with heq | hne
      · subst heq
        rw [hb, getD_set_self _ _ _ _ hi] at he
        exact hsub.subset he
      · rwa [hb, getD_set_ne _ _ _ hne] at he
    obtain ⟨p1, p2, p3⟩ := hplaced j hj e hme
    refine ⟨p1, ?_, ?_⟩
    · show e.time < s.now + s.granularity * (s.items.set i l').length
      rw [hlen2]
      exact p2
    · show j = (s.cursor + (e.time - s.now) / s.granularity) % (s.items.set i l').length
      rw [hlen2]
      exact p3
  · intro j hj
    have hj2 : j < s.items.length := by
      have : j < (s.items.set i l').length := hj
      omega
    replace hj := hj2
    have hb : bucketAt ⟨s.items.set i l', s.now, s.granularity, s.cursor⟩ j =
        (s.items.set i l').getD j [] := rfl
    rcases Decidable.em (i = j) with heq | hne
    · subst heq
      rw [hb, getD_set_self _ _ _ _ hi]
      exact List.Pairwise.sublist hsub (hsorted i hi)
    · rw [hb, getD_set_ne _ _ _ hne]
      exact hsorted j hj

/-- All buckets of a wheel whose `all isEmpty` check passed are empty. -/
theorem all_empty_buckets {s : Timer T} (h : s.items.all List.isEmpty = true) :
    (∀ i, i < s.items.length → s.bucketAt i = []) ∧ storedEntries s = [] := by
  have h2 := List.all_eq_true.mp h
  constructor
  · intro i hi
    rw [bucketAt, List.getD_eq_getElem _ _ hi]
    exact List.isEmpty_iff.mp (h2 _ (List.getElem_mem hi))
  · rw [storedEntries, List.flatten_eq_nil_iff]
    intro l hl
    exact List.isEmpty_iff.mp (h2 _ hl)

/-! Construction, the minimum property of `next_time`, and the tick
loop of `add`. -/

theorem new_spec {now g cap : Nat} {s : Timer T} (h : new T now g cap = some s) :
    s = ⟨List.replicate cap [], now, g, 0⟩ ∧ cap < 2 ^ 32 ∧ 0 < g ∧
      (0 < cap → Inv s) ∧ storedEntries s = [] := by
  rw [new] at h
  by_cases hc : cap < 2 ^ 32 ∧ 0 < g
  · rw [if_pos hc, Option.some_inj] at h
    subst h
    refine ⟨rfl, hc.1, hc.2, ?_, ?_⟩
    · intro hcap
      refine ⟨by simpa using hcap, hc.2, by simpa using hcap, ?_, ?_⟩
      · intro i hi e he
        have hb : bucketAt ⟨List.replicate cap ([] : List (TimerItem T)), now, g, 0⟩ i =
            (List.replicate cap ([] : List (TimerItem T))).getD i [] := rfl
        rw [hb, List.getD_eq_getElem?_getD, List.getElem?_replicate] at he
        simp only [List.length_replicate] at hi
        rw [if_pos hi] at he
        simp at he
      · intro i hi
        have hb : bucketAt ⟨List.replicate cap ([] : List (TimerItem T)), now, g, 0⟩ i =
            (List.replicate cap ([] : List (TimerItem T))).getD i [] := rfl
        rw [hb, List.getD_eq_getElem?_getD, List.getElem?_replicate]
        simp only [List.length_replicate] at hi
        rw [if_pos hi]
        simp
    · rw [storedEntries, List.flatten_eq_nil_iff]
      intro l hl
      exact (List.mem_replicate.mp hl).2
  · rw [if_neg hc] at h
    cases h

/-- The head of the cursor bucket is a global minimum. -/
theorem cursor_head_min {s : Timer T} (hInv : Inv s) {e : TimerItem T}
    {rest : List (TimerItem T)} (hb : s.bucketAt s.cursor = e :: rest) :
    ∀ e2 ∈ storedEntries s, e.time ≤ e2.time := by
  intro e2 he2
  obtain ⟨hlen, hg, hcur, hplaced, hsorted⟩ := hInv
  have hInv2 : Inv s := ⟨hlen, hg, hcur, hplaced, hsorted⟩
  obtain ⟨hd2, hmem2, hge2, _⟩ := mem_stored_rot hInv2 he2
  have hee : e ∈ s.bucketAt s.cursor := by rw [hb]; simp
  obtain ⟨hde, _, hlt1⟩ := cursor_entry_bounds hInv2 hee
  rcases Nat.eq_zero_or_pos (s.delta e2.time) with hz | hpos
  · rw [hz, Nat.add_zero, Nat.mod_eq_of_lt hcur] at hmem2
    rw [hb] at hmem2
    rcases List.mem_cons.mp hmem2 with h | h
    · rw [h]
    · have hp := hsorted s.cursor hcur
      rw [hb] at hp
      exact (List.pairwise_cons.mp hp).1 e2 h
  · have hd1 : 1 ≤ (e2.time - s.now) / s.granularity := hpos
    have := (Nat.le_div_iff_mul_le hg).mp hd1
    omega

/-- All entries of a wheel with an empty cursor bucket are at least one
granularity in the future. -/
theorem empty_cursor_late {s : Timer T} (hInv : Inv s)
    (hemp : s.bucketAt s.cursor = []) :
    ∀ e ∈ storedEntries s, s.now + s.granularity ≤ e.time := by
  intro e he
  rcases mem_stored_iff.mp he with ⟨i, hi, hei⟩
  have hne : i ≠ s.cursor := by
    intro habs
    rw [habs, hemp] at hei
    simp at hei
  exact noncursor_entry_late hInv hi hne hei

theorem nextTimeF_spec {s : Timer T} (hInv : Inv s) :
    ∀ count i, i + count = s.items.length →
      (∀ j, j < i → s.bucketAt ((s.cursor + j) % s.items.length) = []) →
      (nextTimeF s i count = none → storedEntries s = []) ∧
        (∀ t, nextTimeF s i count = some t →
          ∃ e ∈ storedEntries s, e.time = t ∧
            ∀ e2 ∈ storedEntries s, e.time ≤ e2.time) := by
  intro count
  induction count with
  | zero =>
    intro i hi hpre
    constructor
    · intro _
      rw [List.eq_nil_iff_forall_not_mem]
      intro e he
      obtain ⟨hdlt, hmem, _, _⟩ := mem_stored_rot hInv he
      rw [hpre (s.delta e.time) (by omega)] at hmem
      simp at hmem
    · intro t ht
      rw [nextTimeF] at ht
      cases ht
  | succ count ih =>
    intro i hi hpre
    have hilen : i < s.items.length := by omega
    cases hh : (s.bucketAt ((s.cursor + i) % s.items.length)).head? with
    | some e =>
      have heq : nextTimeF s i (count + 1) = some e.time := by
        rw [nextTimeF, hh]
      rcases hbl : s.bucketAt ((s.cursor + i) % s.items.length) with _ | ⟨hd, rest⟩
      · rw [hbl] at hh; cases hh
      · rw [hbl] at hh
        have hhd : hd = e := by simpa using hh
        subst hhd
        constructor
        · intro habs
          rw [heq] at habs
          cases habs
        · intro t ht
          rw [heq, Option.some_inj] at ht
          subst ht
          have hinb : hd ∈ s.bucketAt ((s.cursor + i) % s.items.length) := by
            rw [hbl]; simp
          have hes : hd ∈ storedEntries s :=
            mem_stored_iff.mpr ⟨_, Nat.mod_lt _ hInv.1, hinb⟩
          refine ⟨hd, hes, rfl, ?_⟩
          intro e2 he2
          obtain ⟨hd2, hmem2, _, _⟩ := mem_stored_rot hInv he2
          obtain ⟨_, _, hub⟩ := rot_entry_bounds hInv hilen hinb
          rcases Nat.lt_trichotomy (s.delta e2.time) i with hlt | heqd | hgt
          · rw [hpre _ hlt] at hmem2
            simp at hmem2
          · rw [heqd, hbl] at hmem2
            rcases List.mem_cons.mp hmem2 with h | h
            · rw [h]
            · have hp := hInv.2.2.2.2 ((s.cursor + i) % s.items.length)
                (Nat.mod_lt _ hInv.1)
              rw [hbl] at hp
              exact (List.pairwise_cons.mp hp).1 e2 h
          · obtain ⟨_, hlb2, _⟩ := rot_entry_bounds hInv hd2 hmem2
            have hmul : (i + 1) * s.granularity ≤ s.delta e2.time * s.granularity :=
              Nat.mul_le_mul_right _ (by omega)
            omega
    | none =>
      have heq : nextTimeF s i (count + 1) = nextTimeF s (i + 1) count := by
        rw [nextTimeF, hh]
      rw [heq]
      refine ih (i + 1) (by omega) ?_
      intro j hj
      rcases Nat.lt_or_ge j i with h | h
      · exact hpre j h
      · have : j = i := by omega
        subst this
        exact List.head?_eq_none_iff.mp hh

/-- The scan of `next_time` computes the minimum stored due time, on any
wheel satisfying the invariant. -/
theorem nextTime_min {s : Timer T} (hInv : Inv s) :
    nextTime s = (storedTimes s).min? := by
  have hspec := nextTimeF_spec hInv s.items.length 0 (by omega) (by omega)
  cases hnt : nextTime s with
  | none =>
    have hempty := hspec.1 (by rwa [nextTime] at hnt)
    rw [storedTimes, hempty]
    rfl
  | some t =>
    obtain ⟨e, hes, het, hmin⟩ := hspec.2 t (by rwa [nextTime] at hnt)
    symm
    rw [List.min?_eq_some_iff']
    constructor
    · rw [storedTimes, List.mem_map]
      exact ⟨e, hes, het⟩
    · intro b hb
      rw [storedTimes, List.mem_map] at hb
      rcases hb with ⟨e2, he2, rfl⟩
      rw [← het]
      exact hmin e2 he2

/-- Decomposition of a successful `tick`. -/
theorem tick_eq_some {s s' : Timer T} (h : tick s = some s') :
    s.cursor < s.items.length ∧ s.bucketAt s.cursor = [] ∧
      s' = ⟨s.items, s.now + s.granularity, s.granularity,
        (s.cursor + 1) % s.items.length⟩ := by
  cases hb : s.items[s.cursor]? with
  | none =>
    simp only [tick, hb] at h
    cases h
  | some b =>
    simp only [tick, hb] at h
    by_cases he : b.isEmpty
    · rw [if_pos he, Option.some_inj] at h
      obtain ⟨hlt, hval⟩ := List.getElem?_eq_some_iff.mp hb
      refine ⟨hlt, ?_, h.symm⟩
      rw [bucketAt, List.getD_eq_getElem _ _ hlt, hval]
      exact List.isEmpty_iff.mp he
    · rw [if_neg he] at h
      cases h

theorem addTicks_spec :
    ∀ fuel (s : Timer T) time s2, Inv s → s.now ≤ time →
      addTicks fuel s time = some s2 →
      Inv s2 ∧ s2.items = s.items ∧ s2.granularity = s.granularity ∧
        s.now ≤ s2.now ∧ s2.now ≤ time ∧ time < s2.now + s2.span := by
  intro fuel
  induction fuel with
  | zero => intro s time s2 _ _ h; rw [addTicks] at h; cases h
  | succ fuel ih =>
    intro s time s2 hInv hle h
    rw [addTicks] at h
    by_cases hc : s.now + s.span ≤ time
    · rw [if_pos hc] at h
      cases ht : tick s with
      | none =>
        simp only [ht] at h
        cases h
      | some sx =>
        simp only [ht] at h
        obtain ⟨hcur, hemp, hsx⟩ := tick_eq_some ht
        have hts := tick_spec hInv hemp
        have hsx2 : sx = ⟨s.items, s.now + s.granularity, s.granularity,
            (s.cursor + 1) % s.items.length⟩ := hsx
        have hInvx : Inv sx := by rw [hsx2]; exact hts.2
        have hgle : s.granularity ≤ s.span := by
          rw [span]
          exact Nat.le_mul_of_pos_right _ hInv.1
        have hlex : sx.now ≤ time := by
          rw [hsx2]
          show s.now + s.granularity ≤ time
          omega
        obtain ⟨q1, q2, q3, q4, q5, q6⟩ := ih sx time s2 hInvx hlex h
        rw [hsx2] at q2 q3
        have q4b : s.now + s.granularity ≤ s2.now := by
          rw [hsx2] at q4
          exact q4
        exact ⟨q1, q2, q3, by omega, q5, q6⟩
    · rw [if_neg hc, Option.some_inj] at h
      subst h
      exact ⟨hInv, rfl, rfl, Nat.le_refl _, hle, by omega⟩

/-! Specification of `add` via its three steps. -/

theorem fastJump_spec {s : Timer T} {time : Nat} {s1 : Timer T}
    (hInv : Inv s) (h : fastJump s time = some s1) :
    Inv s1 ∧ s1.items = s.items ∧ s1.granularity = s.granularity ∧
      (s.now ≤ time → s1.now ≤ time) ∧ storedEntries s1 = storedEntries s := by
  obtain ⟨hlen, hg, hcur, hplaced, hsorted⟩ := hInv
  rw [fastJump] at h
  by_cases h1 : s.now + s.span + (s.span - s.granularity) ≤ time
  · rw [if_pos h1] at h
    by_cases h2 : s.items.all List.isEmpty
    · rw [if_pos h2, Option.some_inj] at h
      subst h
      have hemp := all_empty_buckets (s := s) h2
      refine ⟨⟨hlen, hg, hlen, ?_, ?_⟩, rfl, rfl, fun _ => Nat.sub_le _ _, rfl⟩
      · intro i hi e he
        have : e ∈ s.bucketAt i := he
        rw [hemp.1 i hi] at this
        simp at this
      · intro i hi
        have hb : bucketAt ⟨s.items, time - (s.span - s.granularity), s.granularity, 0⟩ i =
            s.bucketAt i := rfl
        rw [hb, hemp.1 i hi]
        exact List.Pairwise.nil
    · rw [if_neg h2] at h
      cases h
  · rw [if_neg h1, Option.some_inj] at h
    subst h
    exact ⟨⟨hlen, hg, hcur, hplaced, hsorted⟩, rfl, rfl, fun hle => hle, rfl⟩

theorem times_getD {b : List (TimerItem T)} {i : Nat} (hi : i < b.length) :
    (times b).getD i 0 = b[i].time := by
  have hi2 : i < (times b).length := by
    rw [times, List.length_map]
    exact hi
  rw [times] at hi2 ⊢
  rw [List.getD_eq_getElem _ _ hi2, List.getElem_map]

theorem insertAt_spec {s : Timer T} {time : Nat} {item : T}
    (hInv : Inv s) (hle : s.now ≤ time) (hw : time < s.now + s.span) :
    Inv (insertAt s time item) ∧
      (insertAt s time item).granularity = s.granularity ∧
      (insertAt s time item).items.length = s.items.length ∧
      (insertAt s time item).now = s.now ∧
      (insertAt s time item).cursor = s.cursor ∧
      (storedEntries (insertAt s time item)).Perm (⟨time, item⟩ :: storedEntries s) := by
  obtain ⟨hlen, hg, hcur, hplaced, hsorted⟩ := hInv
  have hInv2 : Inv s := ⟨hlen, hg, hcur, hplaced, hsorted⟩
  set bi := (s.cursor + s.delta time) % s.items.length with hbidef
  have hbilt : bi < s.items.length := Nat.mod_lt _ hlen
  set b := s.bucketAt bi with hbdef
  have hsb : b.Pairwise (fun a c => a.time ≤ c.time) := hsorted bi hbilt
  have hst : (times b).Pairwise (· ≤ ·) := by
    rw [times, List.pairwise_map]
    exact hsb
  set insv := (match binSearch time (times b) with
    | SearchOutcome.found j => j
    | SearchOutcome.notFound j => j) with hinsdef
  obtain ⟨hinsle0, hlo, hhi⟩ := binSearch_insPoint hst insv hinsdef.symm
  have htlen : (times b).length = b.length := by rw [times, List.length_map]
  have hinsle : insv ≤ b.length := by omega
  have hform : insertAt s time item =
      ⟨s.items.set bi (b.insertIdx insv ⟨time, item⟩), s.now, s.granularity, s.cursor⟩ :=
    rfl
  rw [hform]
  have hlen2 : (s.items.set bi (b.insertIdx insv ⟨time, item⟩)).length =
      s.items.length := List.length_set _ _ _
  refine ⟨⟨?_, hg, ?_, ?_, ?_⟩, rfl, hlen2, rfl, rfl, ?_⟩
  · show 0 < (s.items.set bi (b.insertIdx insv ⟨time, item⟩)).length
    omega
  · show s.cursor < (s.items.set bi (b.insertIdx insv ⟨time, item⟩)).length
    omega
  · -- bucket placement after the insertion
    intro j hj e he
    have hj2 : j < s.items.length := by
      have : j < (s.items.set bi (b.insertIdx insv ⟨time, item⟩)).length := hj
      omega
    have hbk : bucketAt ⟨s.items.set bi (b.insertIdx insv ⟨time, item⟩),
        s.now, s.granularity, s.cursor⟩ j =
        (s.items.set bi (b.insertIdx insv ⟨time, item⟩)).getD j [] := rfl
    rcases Decidable.em (bi = j) with heq | hne
    · subst heq
      rw [hbk, getD_set_self _ _ _ _ hbilt] at he
      rcases (List.mem_insertIdx hinsle).mp he with rfl | hold
      · refine ⟨hle, ?_, ?_⟩
        · show time < s.now + s.granularity *
            (s.items.set bi (b.insertIdx insv ⟨time, item⟩)).length
          rw [hlen2]
          exact hw
        · show bi = (s.cursor + (time - s.now) / s.granularity) %
            (s.items.set bi (b.insertIdx insv ⟨time, item⟩)).length
          rw [hlen2]
          exact hbidef
      · obtain ⟨p1, p2, p3⟩ := hplaced bi hbilt e hold
        refine ⟨p1, ?_, ?_⟩
        · show e.time < s.now + s.granularity *
            (s.items.set bi (b.insertIdx insv ⟨time, item⟩)).length
          rw [hlen2]
          exact p2
        · show bi = (s.cursor + (e.time - s.now) / s.granularity) %
            (s.items.set bi (b.insertIdx insv ⟨time, item⟩)).length
          rw [hlen2]
          exact p3
    · rw [hbk, getD_set_ne _ _ _ hne] at he
      obtain ⟨p1, p2, p3⟩ := hplaced j hj2 e he
      refine ⟨p1, ?_, ?_⟩
      · show e.time < s.now + s.granularity *
          (s.items.set bi (b.insertIdx insv ⟨time, item⟩)).length
        rw [hlen2]
        exact p2
      · show j = (s.cursor + (e.time - s.now) / s.granularity) %
          (s.items.set bi (b.insertIdx insv ⟨time, item⟩)).length
        rw [hlen2]
        exact p3
  · -- buckets stay sorted after the ordered insertion
    intro j hj
    have hj2 : j < s.items.length := by
      have : j < (s.items.set bi (b.insertIdx insv ⟨time, item⟩)).length := hj
      omega
    have hbk : bucketAt ⟨s.items.set bi (b.insertIdx insv ⟨time, item⟩),
        s.now, s.granularity, s.cursor⟩ j =
        (s.items.set bi (b.insertIdx insv ⟨time, item⟩)).getD j [] := rfl
    rcases Decidable.em (bi = j) with heq | hne
    · subst heq
      rw [hbk, getD_set_self _ _ _ _ hbilt]
      refine pairwise_insertIdx b insv ⟨time, item⟩ hinsle ?_ ?_ hsb
      · intro i hi hilt
        have := hlo i (by omega) (by omega)
        rwa [times_getD hi] at this
      · intro i hi hile
        have := hhi i (by omega) (by omega)
        rwa [times_getD hi] at this
    · rw [hbk, getD_set_ne _ _ _ hne]
      exact hsorted j hj2
  · -- the stored multiset gains exactly the new entry
    have hp1 := flatten_set_perm s.items bi (b.insertIdx insv ⟨time, item⟩) hbilt
    have hp2 : (b.insertIdx insv ⟨time, item⟩).Perm (⟨time, item⟩ :: b) :=
      insertIdx_perm_cons b insv ⟨time, item⟩ hinsle
    have hp3 := flatten_perm_bucket s.items bi hbilt
    have hgb : s.items.getD bi [] = b := rfl
    rw [hgb] at hp3
    refine hp1.trans ?_
    refine ((hp2.append_right _).trans ?_)
    show (⟨time, item⟩ :: (b ++ (s.items.set bi []).flatten)).Perm _
    exact List.Perm.cons _ hp3.symm

/-- Effect of a successful `add`: the invariant is preserved and the
stored multiset gains exactly the new entry. -/
theorem add_spec {s : Timer T} {time : Nat} {item : T} {s' : Timer T}
    (hInv : Inv s) (h : add s time item = some s') :
    Inv s' ∧ s'.granularity = s.granularity ∧ s'.items.length = s.items.length ∧
      (storedEntries s').Perm (⟨time, item⟩ :: storedEntries s) ∧ s.now ≤ time := by
  rw [add] at h
  by_cases h0 : time < s.now
  · rw [if_pos h0] at h
    cases h
  · rw [if_neg h0] at h
    cases hfj : fastJump s time with
    | none =>
      simp only [hfj] at h
      cases h
    | some s1 =>
      simp only [hfj] at h
      obtain ⟨q1, q2, q3, q4, q5⟩ := fastJump_spec hInv hfj
      have hle1 : s1.now ≤ time := q4 (Nat.le_of_not_lt h0)
      cases hticks : addTicks (time - s1.now + 1) s1 time with
      | none =>
        simp only [hticks] at h
        cases h
      | some s2 =>
        simp only [hticks, Option.some_inj] at h
        obtain ⟨p1, p2, p3, p4, p5, p6⟩ := addTicks_spec _ s1 time s2 q1 hle1 hticks
        obtain ⟨r1, r2, r3, r4, r5, r6⟩ := insertAt_spec p1 p5 p6
        subst h
        have hstored12 : storedEntries s2 = storedEntries s1 := by
          rw [storedEntries, storedEntries, p2]
        refine ⟨r1, by rw [r2, p3, q3], by rw [r3, p2, q2], ?_, Nat.le_of_not_lt h0⟩
        rw [hstored12, q5] at r6
        exact r6

/-! Specification of `remove`. -/

/-- A hit returned by the run scans of `remove` is a valid index into
the bucket whose entry carries exactly the searched due time and a
payload accepted by the selector. -/
theorem removeHit_some {b : List (TimerItem T)} {time : Nat} {sel : T → Bool} {idx : Nat}
    (h : removeHit b time sel = some idx) :
    ∃ hlt : idx < b.length, b[idx].time = time ∧ sel b[idx].item = true := by
  cases hbs : binSearch time (times b) with
  | notFound ins =>
    simp only [removeHit, hbs] at h
    cases h
  | found start =>
    simp only [removeHit, hbs] at h
    have hstart := binSearch_found hbs
    have hstartb : start < b.length := by
      have := hstart.1
      rwa [times, List.length_map] at this
    cases hback : runFind time sel ((b.take (start + 1)).reverse) with
    | some j =>
      rw [hback, Option.some_inj] at h
      subst h
      obtain ⟨hjlt, hjt, hjs⟩ := runFind_some _ j hback
      have hrevlen : ((b.take (start + 1)).reverse).length = start + 1 := by
        rw [List.length_reverse, List.length_take]
        exact Nat.min_eq_left (by omega)
      rw [hrevlen] at hjlt
      have htl : (b.take (start + 1)).length = start + 1 := by
        rw [List.length_take]
        exact Nat.min_eq_left (by omega)
      have hjle : j ≤ start := by omega
      have hilt : start - j < b.length := by omega
      have hrev : ((b.take (start + 1)).reverse)[j] = b[start - j] := by
        have h1 : ((b.take (start + 1)).reverse)[j]? = (b.take (start + 1))[start - j]? := by
          rw [List.getElem?_reverse (by omega)]
          congr 1
          omega
        have h2 : (b.take (start + 1))[start - j]? = b[start - j]? := by
          rw [List.getElem?_take]
          rw [if_pos (by omega)]
        rw [List.getElem?_eq_getElem (by omega : j < ((b.take (start + 1)).reverse).length)]
          at h1
        rw [h2, List.getElem?_eq_getElem hilt] at h1
        exact Option.some_inj.mp h1
      refine ⟨hilt, ?_, ?_⟩
      · rw [← hrev]; exact hjt
      · rw [← hrev]; exact hjs
    | none =>
      rw [hback] at h
      cases hfwd : runFind time sel (b.drop (start + 1)) with
      | some j =>
        rw [hfwd] at h
        simp only [Option.map_some'] at h
        rw [Option.some_inj] at h
        subst h
        obtain ⟨hjlt, hjt, hjs⟩ := runFind_some _ j hfwd
        have hdroplen : (b.drop (start + 1)).length = b.length - (start + 1) :=
          List.length_drop _ _
        have hidxlt : start + 1 + j < b.length := by omega
        have hdrop : (b.drop (start + 1))[j] = b[start + 1 + j] := by
          have h1 : (b.drop (start + 1))[j]? = b[start + 1 + j]? :=
            List.getElem?_drop b (start + 1) j
          rw [List.getElem?_eq_getElem hjlt, List.getElem?_eq_getElem hidxlt] at h1
          exact Option.some_inj.mp h1
        refine ⟨hidxlt, ?_, ?_⟩
        · rw [← hdrop]; exact hjt
        · rw [← hdrop]; exact hjs
      | none =>
        rw [hfwd] at h
        simp at h

/-- Case analysis of `remove`: either it returns `none` and the wheel is
untouched, or it returns the payload of an entry of the addressed bucket
whose due time is exactly `time` and whose payload satisfies the
selector, and the new state differs only by erasing that one entry. -/
theorem remove_cases (s : Timer T) (time : Nat) (sel : T → Bool) :
    ((remove s time sel).1 = none → (remove s time sel).2 = s) ∧
      (∀ x, (remove s time sel).1 = some x →
        ∃ idx : Nat, ∃ e : TimerItem T,
          (s.bucketAt ((s.cursor + s.delta time) % s.items.length))[idx]? = some e ∧
            e.time = time ∧ sel e.item = true ∧ x = e.item ∧
            (remove s time sel).2 =
              ⟨s.items.set ((s.cursor + s.delta time) % s.items.length)
                  ((s.bucketAt ((s.cursor + s.delta time) % s.items.length)).eraseIdx idx),
                s.now, s.granularity, s.cursor⟩) := by
  cases hh : removeHit (s.bucketAt ((s.cursor + s.delta time) % s.items.length)) time sel with
  | none =>
    have hr : remove s time sel = (none, s) := by
      simp only [remove, hh]
    rw [hr]
    constructor
    · intro _; rfl
    · intro x hx; cases hx
  | some idx =>
    obtain ⟨hlt, hti, hse⟩ := removeHit_some hh
    have hr : remove s time sel =
        (some ((s.bucketAt ((s.cursor + s.delta time) % s.items.length))[idx]).item,
          ⟨s.items.set ((s.cursor + s.delta time) % s.items.length)
              ((s.bucketAt ((s.cursor + s.delta time) % s.items.length)).eraseIdx idx),
            s.now, s.granularity, s.cursor⟩) := by
      simp only [remove, hh, List.getElem?_eq_getElem hlt]
    rw [hr]
    constructor
    · intro hx; cases hx
    · intro x hx
      refine ⟨idx, (s.bucketAt ((s.cursor + s.delta time) % s.items.length))[idx],
        List.getElem?_eq_getElem hlt, hti, hse, ?_, rfl⟩
      exact (Option.some_inj.mp hx).symm

/-- Index translation for the reversed prefix used by the backward scan
of `remove`. -/
theorem rev_take_getElem? {b : List (TimerItem T)} {start j : Nat}
    (hstart : start < b.length) (hj : j ≤ start) :
    ((b.take (start + 1)).reverse)[j]? = b[start - j]? := by
  have htl : (b.take (start + 1)).length = start + 1 := by
    rw [List.length_take]
    exact Nat.min_eq_left (by omega)
  rw [List.getElem?_reverse (by omega)]
  rw [htl]
  have h1 : start + 1 - 1 - j = start - j := by omega
  rw [h1, List.getElem?_take, if_pos (by omega)]

/-- Entries of a list of buckets with one bucket cleared sit in one of
the other buckets. -/
theorem mem_flatten_set_empty {α : Type} {l : List (List α)} {i : Nat} {e : α}
    (he : e ∈ (l.set i []).flatten) :
    ∃ j, j < l.length ∧ j ≠ i ∧ e ∈ l.getD j [] := by
  rcases List.mem_flatten.mp he with ⟨sub, hsub, hesub⟩
  rcases List.mem_iff_getElem.mp hsub with ⟨j, hjl, hjv⟩
  have hjl2 : j < l.length := by
    have := List.length_set l i ([] : List α)
    omega
  refine ⟨j, hjl2, ?_, ?_⟩
  · intro habs
    subst habs
    rw [List.getElem_set, if_pos rfl] at hjv
    rw [← hjv] at hesub
    simp at hesub
  · rcases Decidable.em (i = j) with heq | hne
    · exfalso
      subst heq
      rw [List.getElem_set, if_pos rfl] at hjv
      rw [← hjv] at hesub
      simp at hesub
    · rw [List.getElem_set, if_neg hne] at hjv
      rw [List.getD_eq_getElem _ _ hjl2, hjv]
      exact hesub

/-- The all-empty wheel state produced by a full drain satisfies the
invariant and stores nothing. -/
theorem inv_empty_state {len g : Nat} (now0 : Nat) (hlen : 0 < len) (hg : 0 < g) :
    Inv (T := T) ⟨List.replicate len [], now0, g, 0⟩ ∧
      storedEntries (T := T) ⟨List.replicate len [], now0, g, 0⟩ = [] := by
  constructor
  · refine ⟨by simpa using hlen, hg, by simpa using hlen, ?_, ?_⟩
    · intro i hi e he
      have hb : bucketAt (T := T) ⟨List.replicate len [], now0, g, 0⟩ i =
          (List.replicate len ([] : List (TimerItem T))).getD i [] := rfl
      have hi2 : i < len := by simpa using hi
      rw [hb, List.getD_eq_getElem?_getD, List.getElem?_replicate, if_pos hi2] at he
      simp at he
    · intro i hi
      have hb : bucketAt (T := T) ⟨List.replicate len [], now0, g, 0⟩ i =
          (List.replicate len ([] : List (TimerItem T))).getD i [] := rfl
      have hi2 : i < len := by simpa using hi
      rw [hb, List.getD_eq_getElem?_getD, List.getElem?_replicate, if_pos hi2]
      simp
  · rw [storedEntries, List.flatten_eq_nil_iff]
    intro l hl
    exact (List.mem_replicate.mp hl).2

/-- Filtering a concatenation where the predicate holds on all of the
first part and on none of the second part. -/
theorem filter_append_all_not {α : Type} (p : α → Bool) (D K : List α)
    (hD : ∀ e ∈ D, p e = true) (hK : ∀ e ∈ K, p e = false) :
    (D ++ K).filter p = D := by
  rw [List.filter_append, List.filter_eq_self.mpr hD,
    List.filter_eq_nil_iff.mpr ?_, List.append_nil]
  intro a ha
  rw [hK a ha]
  simp

/-- If the addressed bucket is sorted and holds an entry with exactly
the searched due time and an accepted payload, the index search of
`remove` produces a hit. -/
theorem removeHit_complete {b : List (TimerItem T)} {time : Nat} {sel : T → Bool}
    (hsb : b.Pairwise (fun a c => a.time ≤ c.time))
    (hmem : ∃ k, ∃ hk : k < b.length, b[k].time = time ∧ sel b[k].item = true) :
    ∃ idx, removeHit b time sel = some idx := by
  obtain ⟨k, hk, hkt, hks⟩ := hmem
  have hst : (times b).Pairwise (· ≤ ·) := by
    rw [times, List.pairwise_map]
    exact hsb
  have hmemt : time ∈ times b := by
    rw [times]
    exact List.mem_map.mpr ⟨b[k], List.getElem_mem hk, hkt⟩
  obtain ⟨start, hbs⟩ := binSearch_found_of_mem hst hmemt
  have hstart := binSearch_found hbs
  have hstartb : start < b.length := by
    have := hstart.1
    rwa [times, List.length_map] at this
  have hsv : b[start].time = time := by
    have := hstart.2
    rwa [times_getD hstartb] at this
  have hrun : ∀ i, (hi : i < b.length) →
      (k ≤ i ∧ i ≤ start) ∨ (start ≤ i ∧ i ≤ k) → b[i].time = time := by
    intro i hi hcase
    have hmono : ∀ p q, (hp : p < b.length) → (hq : q < b.length) → p ≤ q →
        b[p].time ≤ b[q].time := by
      intro p q hp hq hpq
      rcases Nat.lt_or_ge p q with h | h
      · exact List.pairwise_iff_getElem.mp hsb p q hp hq h
      · have : p = q := by omega
        subst this
        exact Nat.le_refl _
    rcases hcase with ⟨h1, h2⟩ | ⟨h1, h2⟩
    · have ha := hmono k i hk hi h1
      have hb2 := hmono i start hi hstartb h2
      omega
    · have ha := hmono start i hstartb hi h1
      have hb2 := hmono i k hi hk h2
      omega
  cases hback : runFind time sel ((b.take (start + 1)).reverse) with
  | some j =>
    refine ⟨start - j, ?_⟩
    simp only [removeHit, hbs, hback]
  | none =>
    cases hfwd : runFind time sel (b.drop (start + 1)) with
    | some j =>
      refine ⟨start + 1 + j, ?_⟩
      simp only [removeHit, hbs, hback, hfwd, Option.map_some']
    | none =>
      exfalso
      have hrevlen : ((b.take (start + 1)).reverse).length = start + 1 := by
        rw [List.length_reverse, List.length_take]
        exact Nat.min_eq_left (by omega)
      rcases Nat.lt_or_ge k (start + 1) with hks2 | hks2
      · -- the backward scan reaches index k and must have accepted it
        have hj : start - k < ((b.take (start + 1)).reverse).length := by omega
        have hgetrev : ∀ k2, k2 ≤ start →
            ((b.take (start + 1)).reverse)[k2]? = b[start - k2]? := by
          intro k2 hk2
          exact rev_take_getElem? hstartb hk2
        have hsel := runFind_none _ hback (start - k) hj ?_
        · have hv : ((b.take (start + 1)).reverse)[start - k] = b[k] := by
            have h1 := hgetrev (start - k) (by omega)
            have h2 : start - (start - k) = k := by omega
            rw [h2] at h1
            rw [List.getElem?_eq_getElem hj, List.getElem?_eq_getElem hk] at h1
            exact Option.some_inj.mp h1
          rw [hv, hks] at hsel
          cases hsel
        · intro k2 hk2 hk2le
          have hk2s : k2 ≤ start := by omega
          have h1 := hgetrev k2 hk2s
          have hix : start - k2 < b.length := by omega
          rw [List.getElem?_eq_getElem hk2, List.getElem?_eq_getElem hix] at h1
          rw [Option.some_inj.mp h1]
          exact hrun (start - k2) hix (Or.inl ⟨by omega, by omega⟩)
      · -- the forward scan reaches index k and must have accepted it
        have hdl : (b.drop (start + 1)).length = b.length - (start + 1) :=
          List.length_drop _ _
        have hj : k - (start + 1) < (b.drop (start + 1)).length := by omega
        have hsel := runFind_none _ hfwd (k - (start + 1)) hj ?_
        · have hv : (b.drop (start + 1))[k - (start + 1)] = b[k] := by
            have h1 := List.getElem?_drop b (start + 1) (k - (start + 1))
            have h2 : start + 1 + (k - (start + 1)) = k := by omega
            rw [h2] at h1
            rw [List.getElem?_eq_getElem hj, List.getElem?_eq_getElem hk] at h1
            exact Option.some_inj.mp h1
          rw [hv, hks] at hsel
          cases hsel
        · intro k2 hk2 hk2le
          have h1 := List.getElem?_drop b (start + 1) k2
          have hix : start + 1 + k2 < b.length := by omega
          rw [List.getElem?_eq_getElem hk2, List.getElem?_eq_getElem hix] at h1
          rw [Option.some_inj.mp h1]
          exact hrun (start + 1 + k2) hix (Or.inr ⟨by omega, by omega⟩)

/-- `remove` preserves the invariant. -/
theorem remove_inv {s : Timer T} (hInv : Inv s) (time : Nat) (sel : T → Bool) :
    Inv (remove s time sel).2 := by
  cases hx : (remove s time sel).1 with
  | none =>
    rw [(remove_cases s time sel).1 hx]
    exact hInv
  | some x =>
    obtain ⟨idx, e, hgete, _, _, _, hstate⟩ := (remove_cases s time sel).2 x hx
    rw [hstate]
    exact inv_set_sublist hInv (Nat.mod_lt _ hInv.1) (List.eraseIdx_sublist _ idx)

/-- When `remove` returns a payload, the stored multiset loses exactly
one entry with the searched time and an accepted payload. -/
theorem remove_some_perm {s : Timer T} (hlen : 0 < s.items.length)
    {time : Nat} {sel : T → Bool} {x : T}
    (hx : (remove s time sel).1 = some x) :
    ∃ e : TimerItem T, e.time = time ∧ sel e.item = true ∧ x = e.item ∧
      (storedEntries s).Perm (e :: storedEntries (remove s time sel).2) := by
  obtain ⟨idx, e, hgete, hti, hse, hxe, hstate⟩ := (remove_cases s time sel).2 x hx
  set bi := (s.cursor + s.delta time) % s.items.length with hbidef
  have hbilt : bi < s.items.length := Nat.mod_lt _ hlen
  obtain ⟨hidxlt, hval⟩ := List.getElem?_eq_some_iff.mp hgete
  refine ⟨e, hti, hse, hxe, ?_⟩
  have hp1 := flatten_perm_bucket s.items bi hbilt
  have hgb : s.items.getD bi [] = s.bucketAt bi := rfl
  rw [hgb] at hp1
  have hp2 : (s.bucketAt bi).Perm (e :: (s.bucketAt bi).eraseIdx idx) := by
    rw [← hval]
    exact eraseIdx_perm_cons _ idx hidxlt
  have hp3 : storedEntries (remove s time sel).2 =
      (s.items.set bi ((s.bucketAt bi).eraseIdx idx)).flatten := by
    rw [hstate]
    rfl
  have hp4 := flatten_set_perm s.items bi ((s.bucketAt bi).eraseIdx idx) hbilt
  refine hp1.trans ?_
  refine ((hp2.append_right _).trans ?_)
  show (e :: ((s.bucketAt bi).eraseIdx idx ++ (s.items.set bi []).flatten)).Perm _
  rw [hp3]
  exact List.Perm.cons _ hp4.symm

/-! Specification of `take_next`. -/

theorem takeNextF_spec :
    ∀ fuel (s : Timer T) (u : Nat), Inv s → u - s.now + 1 ≤ fuel →
      ∃ p s2, takeNextF fuel s u = some (p, s2) ∧ Inv s2 ∧
        (∀ e0 ∈ storedEntries s, (∀ e ∈ storedEntries s, e0.time ≤ e.time) →
          e0.time ≤ u →
          (e0.time < u ∨ e0.time < s.now + s.granularity ∨
            s.now + s.delta e0.time * s.granularity < e0.time) →
          ∃ e1 ∈ storedEntries s, (∀ e ∈ storedEntries s, e1.time ≤ e.time) ∧
            e1.time ≤ u ∧ p = some e1.item) ∧
        ((∀ e ∈ storedEntries s, u < e.time) → p = none) := by
  intro fuel
  induction fuel with
  | zero => intro s u hInv hf; omega
  | succ fuel ih =>
    intro s u hInv hf
    obtain ⟨hlen, hg, hcur, hplaced, hsorted⟩ := hInv
    have hInv2 : Inv s := ⟨hlen, hg, hcur, hplaced, hsorted⟩
    have hbsome : s.items[s.cursor]? = some (s.bucketAt s.cursor) := by
      rw [bucketAt, List.getD_eq_getElem _ _ hcur]
      exact List.getElem?_eq_getElem hcur
    cases hb : s.bucketAt s.cursor with
    | cons e rest =>
      have hein : e ∈ s.bucketAt s.cursor := by rw [hb]; simp
      have hemem : e ∈ storedEntries s := mem_stored_iff.mpr ⟨s.cursor, hcur, hein⟩
      have hmin := cursor_head_min hInv2 hb
      obtain ⟨_, _, hewin⟩ := cursor_entry_bounds hInv2 hein
      by_cases hdue : e.time ≤ u
      · refine ⟨some e.item, ⟨s.items.set s.cursor rest, s.now, s.granularity, s.cursor⟩,
          ?_, ?_, ?_, ?_⟩
        · rw [takeNextF]
          rw [hbsome, hb]
          simp only [hdue, if_true]
        · refine inv_set_sublist hInv2 hcur ?_
          rw [hb]
          exact List.sublist_cons_self e rest
        · intro e0 _ _ _ _
          exact ⟨e, hemem, hmin, hdue, rfl⟩
        · intro hall
          exfalso
          have := hall e hemem
          omega
      · by_cases htick : s.now + s.granularity < u
        · exfalso
          omega
        · refine ⟨none, s, ?_, hInv2, ?_, fun _ => rfl⟩
          · rw [takeNextF]
            rw [hbsome, hb]
            simp only [hdue, if_false, htick, if_false]
          · intro e0 he0 hmin0 hle0 _
            exfalso
            have h1 := hmin0 e hemem
            have h2 := hmin e0 he0
            omega
    | nil =>
      have hlate := empty_cursor_late hInv2 hb
      by_cases htick : s.now + s.granularity < u
      · have hts := tick_spec hInv2 hb
        have htv := hts.1
        set s3 : Timer T := ⟨s.items, s.now + s.granularity, s.granularity,
          (s.cursor + 1) % s.items.length⟩ with hs3def
        have hstored3 : storedEntries s3 = storedEntries s := rfl
        obtain ⟨p, s2, q1, q2, q3, q4⟩ := ih s3 u hts.2 (by
          show u - (s.now + s.granularity) + 1 ≤ fuel
          omega)
        refine ⟨p, s2, ?_, q2, ?_, ?_⟩
        · rw [takeNextF]
          rw [hbsome, hb]
          simp only [htick, if_true, htv]
          exact q1
        · intro e0 he0 hmin0 hle0 hdisj
          have hge0 : s.now + s.granularity ≤ e0.time := hlate e0 he0
          have hd0 : 1 ≤ s.delta e0.time := by
            rw [delta, Nat.le_div_iff_mul_le hg]
            omega
          have hdisj3 : e0.time < u ∨ e0.time < s3.now + s3.granularity ∨
              s3.now + s3.delta e0.time * s3.granularity < e0.time := by
            rcases hdisj with h | h | h
            · exact Or.inl h
            · omega
            · refine Or.inr (Or.inr ?_)
              have hδ : s3.delta e0.time = s.delta e0.time - 1 := by
                show (e0.time - (s.now + s.granularity)) / s.granularity = _
                have hx : e0.time - (s.now + s.granularity) =
                    (e0.time - s.now) - s.granularity := by omega
                rw [hx, div_sub_self hg (by omega)]
                rfl
              rw [hδ]
              show s.now + s.granularity + (s.delta e0.time - 1) * s.granularity < e0.time
              have hms : (s.delta e0.time - 1) * s.granularity =
                  s.delta e0.time * s.granularity - s.granularity := by
                rw [Nat.sub_mul, Nat.one_mul]
              rw [hms]
              have hgd : s.granularity ≤ s.delta e0.time * s.granularity := by
                have := Nat.mul_le_mul_right s.granularity hd0
                simpa using this
              omega
          obtain ⟨e1, he1, hm1, hl1, hp1⟩ := q3 e0 (by rwa [hstored3]) (by
            intro e he
            exact hmin0 e (by rwa [hstored3] at he)) hle0 hdisj3
          exact ⟨e1, by rwa [hstored3] at he1, (by
            intro e he
            exact hm1 e (by rwa [hstored3])), hl1, hp1⟩
        · intro hall
          refine q4 ?_
          intro e he
          exact hall e (by rwa [hstored3] at he)
      · refine ⟨none, s, ?_, hInv2, ?_, fun _ => rfl⟩
        · rw [takeNextF]
          rw [hbsome, hb]
          simp only [htick, if_false]
        · intro e0 he0 hmin0 hle0 hdisj
          exfalso
          have hge0 : s.now + s.granularity ≤ e0.time := hlate e0 he0
          have heq0 : e0.time = s.now + s.granularity := by omega
          rcases hdisj with h | h | h
          · omega
          · omega
          · have hδ : s.delta e0.time = 1 := by
              rw [delta, heq0]
              have hx : s.now + s.granularity - s.now = s.granularity := by omega
              rw [hx, Nat.div_self hg]
            rw [hδ, Nat.one_mul] at h
            omega

/-- Top-level specification of `take_next`: it never hits the tick
assertion, returns the payload of an earliest-due entry under the
reachability conditions, and returns nothing when nothing is due. -/
theorem takeNext_spec {s : Timer T} (hInv : Inv s) (u : Nat) :
    ∃ p s2, takeNext s u = some (p, s2) ∧ Inv s2 ∧
      (∀ e0 ∈ storedEntries s, (∀ e ∈ storedEntries s, e0.time ≤ e.time) →
        e0.time ≤ u →
        (e0.time < u ∨ e0.time < s.now + s.granularity ∨
          s.now + s.delta e0.time * s.granularity < e0.time) →
        ∃ e1 ∈ storedEntries s, (∀ e ∈ storedEntries s, e1.time ≤ e.time) ∧
          e1.time ≤ u ∧ p = some e1.item) ∧
      ((∀ e ∈ storedEntries s, u < e.time) → p = none) :=
  takeNextF_spec (u - s.now + 1) s u hInv (Nat.le_refl _)

/-! Specification of `take_until`. -/

theorem drainLoop_spec :
    ∀ d (s : Timer T), Inv s →
      ∃ bs s2, drainLoop d s = some (bs, s2) ∧ Inv s2 ∧
        s2.granularity = s.granularity ∧ s2.now = s.now + d * s.granularity ∧
        s2.items.length = s.items.length ∧
        (storedEntries s).Perm (bs.flatten ++ storedEntries s2) ∧
        (∀ e ∈ bs.flatten, s.now ≤ e.time ∧ e.time < s.now + d * s.granularity) ∧
        (∀ e ∈ storedEntries s2, s.now + d * s.granularity ≤ e.time) := by
  intro d
  induction d with
  | zero =>
    intro s hInv
    refine ⟨[], s, rfl, hInv, rfl, by omega, rfl, by simp, ?_, ?_⟩
    · intro e he; simp at he
    · intro e he
      have := (mem_stored_rot hInv he).2.2.1
      omega
  | succ d ih =>
    intro s hInv
    obtain ⟨hlen, hg, hcur, hplaced, hsorted⟩ := hInv
    have hInv2 : Inv s := ⟨hlen, hg, hcur, hplaced, hsorted⟩
    have hbsome : s.items[s.cursor]? = some (s.bucketAt s.cursor) := by
      rw [bucketAt, List.getD_eq_getElem _ _ hcur]
      exact List.getElem?_eq_getElem hcur
    set b := s.bucketAt s.cursor with hbdef
    set sr : Timer T := ⟨s.items.set s.cursor [], s.now, s.granularity, s.cursor⟩
      with hsrdef
    have hInvr : Inv sr := inv_set_sublist hInv2 hcur (List.nil_sublist _)
    have hbr : sr.bucketAt sr.cursor = [] := by
      show (s.items.set s.cursor []).getD s.cursor [] = []
      exact getD_set_self _ _ _ _ hcur
    have hts := tick_spec hInvr hbr
    have hlenr : (s.items.set s.cursor []).length = s.items.length :=
      List.length_set _ _ _
    set s3 : Timer T := ⟨s.items.set s.cursor [], s.now + s.granularity,
      s.granularity, (s.cursor + 1) % s.items.length⟩ with hs3def
    have hs3eq : (⟨sr.items, sr.now + sr.granularity, sr.granularity,
        (sr.cursor + 1) % sr.items.length⟩ : Timer T) = s3 := by
      show (⟨s.items.set s.cursor [], s.now + s.granularity, s.granularity,
        (s.cursor + 1) % (s.items.set s.cursor []).length⟩ : Timer T) = s3
      rw [hs3def, hlenr]
    have hInv3 : Inv s3 := by
      rw [← hs3eq]
      exact hts.2
    obtain ⟨bs, s2, q1, q2, q3, q4, q5, q6, q7, q8⟩ := ih s3 hInv3
    have hdl : drainLoop (d + 1) s = some (b :: bs, s2) := by
      rw [drainLoop]
      rw [hbsome]
      simp only [← hbdef]
      have harg : (⟨s.items.set s.cursor [], s.now + s.granularity, s.granularity,
          (s.cursor + 1) % s.items.length⟩ : Timer T) = s3 := rfl
      rw [harg, q1]
      rfl
    have hsucc : (d + 1) * s.granularity = d * s.granularity + s.granularity := by
      rw [Nat.succ_mul]
    have hbound : ∀ e ∈ b, s.now ≤ e.time ∧ e.time < s.now + s.granularity := by
      intro e he
      have := cursor_entry_bounds hInv2 (by rwa [← hbdef])
      exact ⟨this.2.1, this.2.2⟩
    have hstored3 : storedEntries s3 = (s.items.set s.cursor []).flatten := rfl
    have hpm : (storedEntries s).Perm (b ++ storedEntries s3) := by
      rw [hstored3]
      exact flatten_perm_bucket s.items s.cursor hcur
    refine ⟨b :: bs, s2, hdl, q2, by rw [q3], ?_, ?_, ?_, ?_, ?_⟩
    · show s2.now = s.now + (d + 1) * s.granularity
      rw [q4]
      show s3.now + d * s3.granularity = s.now + (d + 1) * s.granularity
      have h3g : s3.granularity = s.granularity := rfl
      have h3n : s3.now = s.now + s.granularity := rfl
      rw [h3g, h3n]
      omega
    · rw [q5]
      show (s.items.set s.cursor []).length = s.items.length
      exact hlenr
    · refine hpm.trans ?_
      refine (List.Perm.append_left b q6).trans ?_
      rw [List.flatten_cons, List.append_assoc]
    · intro e he
      rw [List.flatten_cons] at he
      rcases List.mem_append.mp he with h | h
      · have := hbound e h
        have hgs : s.granularity ≤ (d + 1) * s.granularity := by
          have := Nat.mul_le_mul_right s.granularity (Nat.succ_le_succ (Nat.zero_le d))
          simpa using this
        omega
      · have := q7 e h
        have h3g : s3.granularity = s.granularity := rfl
        have h3n : s3.now = s.now + s.granularity := rfl
        rw [h3g, h3n] at this
        omega
    · intro e he
      have := q8 e he
      have h3g : s3.granularity = s.granularity := rfl
      have h3n : s3.now = s.now + s.granularity := rfl
      rw [h3g, h3n] at this
      omega

/-- The split index computed for the boundary bucket of the partial
drain separates entries due at or before `u` from entries due after
`u`. -/
theorem cutoff_partition {b : List (TimerItem T)} {u : Nat}
    (hsb : b.Pairwise (fun a c => a.time ≤ c.time)) :
    ∀ li, (match binSearch u (times b) with
           | SearchOutcome.found m => skipRun u (times b) (b.length + 1) m
           | SearchOutcome.notFound ins => ins) = li →
      li ≤ b.length ∧ (∀ i, (hi : i < b.length) → i < li → b[i].time ≤ u) ∧
        (∀ i, (hi : i < b.length) → li ≤ i → u < b[i].time) := by
  have hst : (times b).Pairwise (· ≤ ·) := by
    rw [times, List.pairwise_map]
    exact hsb
  have htlen : (times b).length = b.length := by rw [times, List.length_map]
  intro li hli
  cases hbs : binSearch u (times b) with
  | found m =>
    simp only [hbs] at hli
    subst hli
    have hf := binSearch_found hbs
    have hmb : m < b.length := by omega
    have hmu : (times b).getD m 0 = u := hf.2
    obtain ⟨hs1, hs2, hs3, hs4⟩ := skipRun_spec u (times b) (b.length + 1) m (by omega)
    set sk := skipRun u (times b) (b.length + 1) m with hskdef
    have hle : sk ≤ b.length := by
      have := hs4 (by omega)
      omega
    refine ⟨hle, ?_, ?_⟩
    · intro i hi hilt
      rcases Nat.lt_or_ge i m with hc | hc
      · have := sorted_getD_mono hst (by omega : m < (times b).length) (Nat.le_of_lt hc)
        rw [hmu] at this
        rwa [times_getD hi] at this
      · have := hs2 i hc hilt
        rw [times_getD hi] at this
        omega
    · intro i hi hge
      have hlib : sk < (times b).length := by omega
      have hlin : (times b).getD sk 0 ≠ u := hs3 (by omega)
      have hliu : u ≤ (times b).getD sk 0 := by
        have := sorted_getD_mono hst hlib hs1
        rwa [hmu] at this
      have hmono := sorted_getD_mono hst (by omega : i < (times b).length) hge
      rw [times_getD hi] at hmono
      omega
  | notFound ins =>
    simp only [hbs] at hli
    subst hli
    obtain ⟨hn1, hn2, hn3⟩ := binSearch_notFound hst hbs
    refine ⟨by omega, ?_, ?_⟩
    · intro i hi hilt
      have := hn2 i hilt
      rw [times_getD hi] at this
      omega
    · intro i hi hge
      have := hn3 i hge (by omega)
      rwa [times_getD hi] at this

/-- Main specification of `take_until`: it succeeds on every
invariant-satisfying wheel, removes exactly the entries due at or before
`u` (as a multiset), keeps exactly the entries due after `u`, and
preserves the invariant. -/
theorem takeUntil_spec {s : Timer T} (hInv : Inv s) (u : Nat) :
    ∃ out s3, takeUntil s u = some (out, s3) ∧ Inv s3 ∧
      out.Perm (((storedEntries s).filter (fun e => decide (e.time ≤ u))).map
        TimerItem.item) ∧
      (storedEntries s3).Perm ((storedEntries s).filter (fun e => decide (u < e.time))) := by
  obtain ⟨hlen, hg, hcur, hplaced, hsorted⟩ := hInv
  have hInv2 : Inv s := ⟨hlen, hg, hcur, hplaced, hsorted⟩
  by_cases hcond : s.now + s.span ≤ u
  · -- full drain
    have heq : takeUntil s u =
        some ((s.items.drop 0 ++ s.items.take 0).flatten.map TimerItem.item,
          ⟨List.replicate s.items.length [], u, s.granularity, 0⟩) := by
      rw [takeUntil, if_pos hcond]
    have hfd : (s.items.drop 0 ++ s.items.take 0).flatten.map TimerItem.item =
        (storedEntries s).map TimerItem.item := by
      rw [List.drop_zero, List.take_zero, List.append_nil]
      rfl
    have hfe := inv_empty_state (T := T) u hlen hg
    have hfilterD : (storedEntries s).filter (fun e => decide (e.time ≤ u)) =
        storedEntries s := by
      rw [List.filter_eq_self]
      intro e he
      have := (mem_stored_rot hInv2 he).2.2.2
      simp only [decide_eq_true_eq]
      omega
    have hfilterK : (storedEntries s).filter (fun e => decide (u < e.time)) = [] := by
      rw [List.filter_eq_nil_iff]
      intro e he
      have := (mem_stored_rot hInv2 he).2.2.2
      simp only [decide_eq_true_eq]
      omega
    refine ⟨_, _, heq, hfe.1, ?_, ?_⟩
    · rw [hfd, hfilterD]
    · rw [hfe.2, hfilterK]
  · -- partial drain, bucket at a time plus a split of the boundary bucket
    obtain ⟨bs, s2, hdl, hInvM, hgM, hnowM, hlenM, hpermM, hdrained, hremain⟩ :=
      drainLoop_spec (s.delta u) s hInv2
    obtain ⟨hlen2, hg2, hcur2, hplaced2, hsorted2⟩ := hInvM
    have hInvM2 : Inv s2 := ⟨hlen2, hg2, hcur2, hplaced2, hsorted2⟩
    have hb2 : s2.items[s2.cursor]? = some (s2.bucketAt s2.cursor) := by
      rw [bucketAt, List.getD_eq_getElem _ _ hcur2]
      exact List.getElem?_eq_getElem hcur2
    set b := s2.bucketAt s2.cursor with hbdef
    set LI := (match binSearch u (times b) with
      | SearchOutcome.found m => skipRun u (times b) (b.length + 1) m
      | SearchOutcome.notFound ins => ins) with hLIdef
    have heq : takeUntil s u =
        some ((bs ++ [b.take LI]).flatten.map TimerItem.item,
          ⟨s2.items.set s2.cursor (b.drop LI), s2.now, s2.granularity, s2.cursor⟩) := by
      rw [takeUntil, if_neg hcond]
      simp only [hdl, hb2]
    obtain ⟨hLIle, hLIlo, hLIhi⟩ := cutoff_partition (hsorted2 _ hcur2) LI hLIdef.symm
    clear_value LI
    rw [← hbdef] at hLIle hLIlo hLIhi
    clear_value b
    have hsplit : b = b.take LI ++ b.drop LI := (List.take_append_drop LI b).symm
    -- time bounds for the four groups
    have hdg : s.delta u * s.granularity ≤ u - s.now := by
      rw [delta]
      exact Nat.div_mul_le_self _ _
    have hdg2 : u - s.now < (s.delta u + 1) * s.granularity := by
      rw [delta, Nat.succ_mul]
      have h1 := Nat.mod_lt (u - s.now) hg
      have hdm := Nat.div_add_mod (u - s.now) s.granularity
      have hcm : (u - s.now) / s.granularity * s.granularity =
          s.granularity * ((u - s.now) / s.granularity) := Nat.mul_comm _ _
      omega
    have hheadle : ∀ e ∈ b.take LI, e.time ≤ u := by
      intro e he
      rcases List.mem_iff_getElem.mp he with ⟨i, hi, hiv⟩
      have hitl : (b.take LI).length = LI := by
        rw [List.length_take]
        exact Nat.min_eq_left hLIle
      have hiLI : i < LI := hitl ▸ hi
      have hib : i < b.length := by omega
      have hgete : (b.take LI)[i] = b[i] := List.getElem_take _
      rw [hgete] at hiv
      rw [← hiv]
      exact hLIlo i hib hiLI
    have hdrainedle : ∀ e ∈ bs.flatten, e.time ≤ u := by
      intro e he
      obtain ⟨h1, h2⟩ := hdrained e he
      rcases Nat.lt_or_ge u s.now with hun | hun
      · exfalso
        have hd0 : s.delta u = 0 := by
          rw [delta]
          have : u - s.now = 0 := by omega
          rw [this]
          exact Nat.zero_div _
        rw [hd0] at h2
        simp at h2
        omega
      · omega
    have htailgt : ∀ e ∈ b.drop LI, u < e.time := by
      intro e he
      rcases List.mem_iff_getElem.mp he with ⟨i, hi, hiv⟩
      have hdl2 : (b.drop LI).length = b.length - LI := List.length_drop _ _
      have hisub : i < b.length - LI := hdl2 ▸ hi
      have hib : LI + i < b.length := by omega
      have hgete : (b.drop LI)[i] = b[LI + i] := List.getElem_drop _
      rw [hgete] at hiv
      rw [← hiv]
      exact hLIhi (LI + i) hib (by omega)
    have hrestgt : ∀ e ∈ (s2.items.set s2.cursor []).flatten, u < e.time := by
      intro e he
      obtain ⟨j, hj, hjne, hjmem⟩ := mem_flatten_set_empty he
      have hlate : s2.now + s2.granularity ≤ e.time :=
        noncursor_entry_late hInvM2 hj hjne hjmem
      rw [hnowM, hgM] at hlate
      rcases Nat.lt_or_ge u s.now with hun | hun
      · omega
      · have : u < s.now + (s.delta u + 1) * s.granularity := by omega
        rw [Nat.succ_mul] at this
        omega
    -- decomposition of the stored entries
    have hpermb : (storedEntries s2).Perm (b ++ (s2.items.set s2.cursor []).flatten) := by
      rw [hbdef]
      exact flatten_perm_bucket s2.items s2.cursor hcur2
    have houtflat : (bs ++ [b.take LI]).flatten = bs.flatten ++ b.take LI := by
      rw [List.flatten_append]
      simp
    have hs3stored : storedEntries
        ⟨s2.items.set s2.cursor (b.drop LI), s2.now, s2.granularity, s2.cursor⟩ =
        (s2.items.set s2.cursor (b.drop LI)).flatten := rfl
    have hpermtail : (storedEntries
        ⟨s2.items.set s2.cursor (b.drop LI), s2.now, s2.granularity, s2.cursor⟩).Perm
        (b.drop LI ++ (s2.items.set s2.cursor []).flatten) := by
      rw [hs3stored]
      exact flatten_set_perm s2.items s2.cursor (b.drop LI) hcur2
    have hassoc : bs.flatten ++
        ((b.take LI ++ b.drop LI) ++ (s2.items.set s2.cursor []).flatten) =
        (bs.flatten ++ b.take LI) ++
          (b.drop LI ++ (s2.items.set s2.cursor []).flatten) := by
      rw [List.append_assoc (b.take LI) (b.drop LI),
        List.append_assoc bs.flatten (b.take LI)]
    have hdecomp : (storedEntries s).Perm
        ((bs.flatten ++ b.take LI) ++ (b.drop LI ++ (s2.items.set s2.cursor []).flatten)) := by
      rw [← hassoc]
      refine hpermM.trans ?_
      refine List.Perm.append_left bs.flatten ?_
      rw [← hsplit]
      exact hpermb
    -- the two filters pick out exactly the two halves
    have hD : ∀ e ∈ bs.flatten ++ b.take LI, decide (e.time ≤ u) = true := by
      intro e he
      rcases List.mem_append.mp he with h | h
      · simp only [decide_eq_true_eq]
        exact hdrainedle e h
      · simp only [decide_eq_true_eq]
        exact hheadle e h
    have hK : ∀ e ∈ b.drop LI ++ (s2.items.set s2.cursor []).flatten,
        decide (e.time ≤ u) = false := by
      intro e he
      simp only [decide_eq_false_iff_not]
      rcases List.mem_append.mp he with h | h
      · have := htailgt e h
        omega
      · have := hrestgt e h
        omega
    have hD2 : ∀ e ∈ bs.flatten ++ b.take LI, decide (u < e.time) = false := by
      intro e he
      simp only [decide_eq_false_iff_not]
      rcases List.mem_append.mp he with h | h
      · have := hdrainedle e h
        omega
      · have := hheadle e h
        omega
    have hK2 : ∀ e ∈ b.drop LI ++ (s2.items.set s2.cursor []).flatten,
        decide (u < e.time) = true := by
      intro e he
      simp only [decide_eq_true_eq]
      rcases List.mem_append.mp he with h | h
      · exact htailgt e h
      · exact hrestgt e h
    have hfilter1 : ((storedEntries s).filter (fun e => decide (e.time ≤ u))).Perm
        (bs.flatten ++ b.take LI) := by
      refine (hdecomp.filter _).trans ?_
      rw [filter_append_all_not _ _ _ hD hK]
    have hfilter2 : ((storedEntries s).filter (fun e => decide (u < e.time))).Perm
        (b.drop LI ++ (s2.items.set s2.cursor []).flatten) := by
      refine (hdecomp.filter _).trans ?_
      rw [List.filter_append, List.filter_eq_nil_iff.mpr ?_,
        List.filter_eq_self.mpr hK2, List.nil_append]
      intro e he
      rw [hD2 e he]
      simp
    refine ⟨_, _, heq, ?_, ?_, ?_⟩
    · refine inv_set_sublist hInvM2 hcur2 ?_
      rw [← hbdef]
      exact List.drop_sublist _ _
    · rw [houtflat]
      exact (hfilter1.map TimerItem.item).symm
    · exact hpermtail.trans hfilter2.symm

/-! Invariant of wheels built by a sequence of `add` calls. -/

theorem foldAdds_none (ops : List (Nat × T)) :
    ops.foldl (fun acc p => acc.bind (fun st => st.add p.1 p.2))
      (none : Option (Timer T)) = none := by
  induction ops with
  | nil => rfl
  | cons p rest ih =>
    rw [List.foldl_cons]
    exact ih

/-- A wheel with no buckets makes `add` panic (the tick loop indexes an
empty vector). -/
theorem add_nil_items {s : Timer T} (hnil : s.items = []) (time : Nat) (item : T) :
    add s time item = none := by
  rw [add]
  by_cases h0 : time < s.now
  · rw [if_pos h0]
  · rw [if_neg h0]
    have hsp : s.span = 0 := by rw [span, hnil]; simp
    have hfj : fastJump s time =
        some ⟨s.items, time - (s.span - s.granularity), s.granularity, 0⟩ := by
      rw [fastJump, if_pos (by omega), if_pos (by rw [hnil]; rfl)]
    simp only [hfj]
    have htick : tick (⟨s.items, time - (s.span - s.granularity), s.granularity, 0⟩ :
        Timer T) = none := by
      rw [tick]
      have hidx : (⟨s.items, time - (s.span - s.granularity), s.granularity, 0⟩ :
          Timer T).items[(⟨s.items, time - (s.span - s.granularity), s.granularity, 0⟩ :
          Timer T).cursor]? = none := by
        show s.items[0]? = none
        rw [hnil]
        rfl
      rw [hidx]
    have hcond : (⟨s.items, time - (s.span - s.granularity), s.granularity, 0⟩ :
        Timer T).now + (⟨s.items, time - (s.span - s.granularity), s.granularity, 0⟩ :
        Timer T).span ≤ time := by
      show time - (s.span - s.granularity) + s.granularity * s.items.length ≤ time
      rw [hnil]
      simp
    rw [addTicks, if_pos hcond, htick]

theorem foldAdds_inv {ops : List (Nat × T)} :
    ∀ (s0 : Timer T), Inv s0 ∨ s0.items = [] →
      ∀ s, ops.foldl (fun acc p => acc.bind (fun st => st.add p.1 p.2)) (some s0) = some s →
        Inv s ∨ s.items = [] := by
  induction ops with
  | nil =>
    intro s0 h0 s hs
    rw [List.foldl_nil, Option.some_inj] at hs
    subst hs
    exact h0
  | cons p rest ih =>
    intro s0 h0 s hs
    rw [List.foldl_cons] at hs
    have hbind : (some s0).bind (fun st => st.add p.1 p.2) = s0.add p.1 p.2 := rfl
    rw [hbind] at hs
    cases ha : s0.add p.1 p.2 with
    | none =>
      rw [ha, foldAdds_none] at hs
      cases hs
    | some s1 =>
      rw [ha] at hs
      rcases h0 with hInv0 | hnil0
      · exact ih s1 (Or.inl (add_spec hInv0 ha).1) s hs
      · rw [add_nil_items hnil0] at ha
        cases ha

/-- Any wheel reached by construction plus a sequence of `add` calls
satisfies the invariant, or is the degenerate zero-capacity wheel with
no buckets (on which the first `add` would panic). -/
theorem addSequence_inv {now g cap : Nat} {ops : List (Nat × T)} {s : Timer T}
    (h : addSequence T now g cap ops = some s) : Inv s ∨ s.items = [] := by
  rw [addSequence] at h
  cases hn : new T now g cap with
  | none =>
    rw [hn, foldAdds_none] at h
    cases h
  | some s0 =>
    rw [hn] at h
    have hs0 := new_spec hn
    refine foldAdds_inv s0 ?_ s h
    rcases Nat.eq_zero_or_pos cap with hc | hc
    · refine Or.inr ?_
      rw [hs0.1, hc]
      rfl
    · exact Or.inl (hs0.2.2.2.1 hc)

/-- A bucket observed to be non-empty implies a positive capacity. -/
theorem bucket_nonempty_len_pos {s : Timer T} {bi : Nat} (h : s.bucketAt bi ≠ []) :
    0 < s.items.length := by
  by_contra habs
  have hnil : s.items = [] := by
    cases hx : s.items with
    | nil => rfl
    | cons a l => rw [hx] at habs; simp at habs
  refine h ?_
  rw [bucketAt, hnil]
  cases bi <;> rfl

end Timer

/-! Claim theorems. -/

/-- C1: for every wheel state satisfying the data-model invariant (the
states reachable through the public operations) and every instant `t`,
`take_until(t)` succeeds and returns exactly the multiset of stored
payloads with due time ≤ t, and leaves stored exactly the entries with
due time > t.  The removal is part of the state returned by
`take_until` itself — the model is the eager excision the source
performs before handing out the iterator — so it is committed
independently of how much of the returned sequence the caller
consumes. -/
theorem c1_take_until_partitions {T : Type} {s : Timer T} (hInv : Timer.Inv s) (t : Nat) :
    ∃ out s', Timer.takeUntil s t = some (out, s') ∧
      out.Perm (((Timer.storedEntries s).filter (fun e => decide (e.time ≤ t))).map
        TimerItem.item) ∧
      (Timer.storedEntries s').Perm
        ((Timer.storedEntries s).filter (fun e => decide (t < e.time))) := by
  obtain ⟨out, s', h1, _, h3, h4⟩ := Timer.takeUntil_spec hInv t
  exact ⟨out, s', h1, h3, h4⟩

theorem c1_witness :
    Timer.Inv (⟨[[⟨1, 10⟩], [⟨2, 20⟩]], 1, 1, 0⟩ : Timer Nat) ∧
      ∃ out s',
        Timer.takeUntil (⟨[[⟨1, 10⟩], [⟨2, 20⟩]], 1, 1, 0⟩ : Timer Nat) 1 =
          some (out, s') ∧
        out.Perm (((Timer.storedEntries (⟨[[⟨1, 10⟩], [⟨2, 20⟩]], 1, 1, 0⟩ :
          Timer Nat)).filter (fun e => decide (e.time ≤ 1))).map TimerItem.item) ∧
        (Timer.storedEntries s').Perm
          ((Timer.storedEntries (⟨[[⟨1, 10⟩], [⟨2, 20⟩]], 1, 1, 0⟩ :
            Timer Nat)).filter (fun e => decide (1 < e.time))) :=
  ⟨by decide, c1_take_until_partitions (by decide) 1⟩

/-- C2: refuted on the code.  On the full-drain path the source resets
`self.cursor` to 0 and only afterwards computes
`items.split_off(self.cursor)`, so the drain yields the buckets in raw
array order from index 0, not in chronological order from the pre-call
cursor.  On the reachable wheel below (capacity 2, cursor 1, bucket 0
holding the entry due 2, bucket 1 the entry due 1), draining at time 3
yields payloads `[20, 10]` — due times 2 then 1 — instead of the
chronological `[10, 20]`. -/
theorem c2_full_drain_order_bug :
    Timer.addSequence Nat 0 1 2 [(2, 20), (1, 10)] =
      some ⟨[[⟨2, 20⟩], [⟨1, 10⟩]], 1, 1, 1⟩ ∧
    Timer.Inv (⟨[[⟨2, 20⟩], [⟨1, 10⟩]], 1, 1, 1⟩ : Timer Nat) ∧
    Timer.storedEntries (⟨[[⟨2, 20⟩], [⟨1, 10⟩]], 1, 1, 1⟩ : Timer Nat) =
      [⟨2, 20⟩, ⟨1, 10⟩] ∧
    (⟨[[⟨2, 20⟩], [⟨1, 10⟩]], 1, 1, 1⟩ : Timer Nat).now +
      (⟨[[⟨2, 20⟩], [⟨1, 10⟩]], 1, 1, 1⟩ : Timer Nat).span ≤ 3 ∧
    (Timer.takeUntil (⟨[[⟨2, 20⟩], [⟨1, 10⟩]], 1, 1, 1⟩ : Timer Nat) 3).map Prod.fst =
      some [20, 10] := by
  refine ⟨by decide, by decide, by decide, by decide, by decide⟩

/-- C3: after any sequence of `add` calls on a freshly constructed
wheel, `next_time()` equals the minimum due time among the stored
entries, and it is empty exactly when no entries are stored.
`next_time` is a pure function of the wheel state (it takes the state
and returns only an optional instant), so it modifies nothing. -/
theorem c3_next_time_min {T : Type} {now g cap : Nat} {ops : List (Nat × T)} {s : Timer T}
    (h : Timer.addSequence T now g cap ops = some s) :
    Timer.nextTime s = (Timer.storedTimes s).min? ∧
      (Timer.nextTime s = none ↔ Timer.storedEntries s = []) := by
  rcases Timer.addSequence_inv h with hInv | hnil
  · have hm := Timer.nextTime_min hInv
    refine ⟨hm, ?_⟩
    rw [hm]
    constructor
    · intro hn
      have h1 := List.min?_eq_none_iff.mp hn
      rw [Timer.storedTimes] at h1
      exact List.map_eq_nil_iff.mp h1
    · intro he
      rw [Timer.storedTimes, he]
      rfl
  · have h1 : Timer.nextTime s = none := by
      rw [Timer.nextTime, hnil]
      rfl
    have h2 : Timer.storedEntries s = [] := by
      rw [Timer.storedEntries, hnil]
      rfl
    have h3 : Timer.storedTimes s = [] := by
      rw [Timer.storedTimes, h2]
      rfl
    rw [h1, h2, h3]
    exact ⟨rfl, by simp⟩

theorem c3_witness :
    Timer.nextTime (⟨[[⟨3, 3⟩, ⟨6, 2⟩], [], [⟨22, 4⟩], [], [⟨40, 5⟩, ⟨40, 0⟩],
        [], [], [], [], [⟨91, 1⟩]], 0, 10, 0⟩ : Timer Nat) =
      (Timer.storedTimes (⟨[[⟨3, 3⟩, ⟨6, 2⟩], [], [⟨22, 4⟩], [], [⟨40, 5⟩, ⟨40, 0⟩],
        [], [], [], [], [⟨91, 1⟩]], 0, 10, 0⟩ : Timer Nat)).min? ∧
      (Timer.nextTime (⟨[[⟨3, 3⟩, ⟨6, 2⟩], [], [⟨22, 4⟩], [], [⟨40, 5⟩, ⟨40, 0⟩],
          [], [], [], [], [⟨91, 1⟩]], 0, 10, 0⟩ : Timer Nat) = none ↔
        Timer.storedEntries (⟨[[⟨3, 3⟩, ⟨6, 2⟩], [], [⟨22, 4⟩], [], [⟨40, 5⟩, ⟨40, 0⟩],
          [], [], [], [], [⟨91, 1⟩]], 0, 10, 0⟩ : Timer Nat) = []) :=
  @c3_next_time_min Nat 0 10 10 [(40, 0), (91, 1), (6, 2), (3, 3), (22, 4), (40, 5)]
    ⟨[[⟨3, 3⟩, ⟨6, 2⟩], [], [⟨22, 4⟩], [], [⟨40, 5⟩, ⟨40, 0⟩],
      [], [], [], [], [⟨91, 1⟩]], 0, 10, 0⟩ (by decide)

/-- C4: after every public operation that returns normally from a state
satisfying the data-model invariant, every stored entry with due time
`t` occupies bucket `(cursor + floor((t - now) / granularity)) mod
capacity`, and every bucket's entries are sorted ascending by due
time. -/
theorem c4_invariants_preserved {T : Type} :
    (∀ now g cap (s : Timer T), Timer.new T now g cap = some s →
      Timer.Placed s ∧ Timer.SortedBuckets s) ∧
    (∀ (s : Timer T) time item s', Timer.Inv s → Timer.add s time item = some s' →
      Timer.Placed s' ∧ Timer.SortedBuckets s') ∧
    (∀ (s : Timer T) time sel, Timer.Inv s →
      Timer.Placed (Timer.remove s time sel).2 ∧
        Timer.SortedBuckets (Timer.remove s time sel).2) ∧
    (∀ (s : Timer T) u p s', Timer.Inv s → Timer.takeNext s u = some (p, s') →
      Timer.Placed s' ∧ Timer.SortedBuckets s') ∧
    (∀ (s : Timer T) u out s', Timer.Inv s → Timer.takeUntil s u = some (out, s') →
      Timer.Placed s' ∧ Timer.SortedBuckets s') := by
  refine ⟨?_, ?_, ?_, ?_, ?_⟩
  · intro now g cap s h
    obtain ⟨hform, _, hg, _, _⟩ := Timer.new_spec h
    subst hform
    constructor
    · intro i hi e he
      have hi2 : i < cap := by simpa using hi
      have hb : Timer.bucketAt ⟨List.replicate cap [], now, g, 0⟩ i =
          (List.replicate cap ([] : List (TimerItem T))).getD i [] := rfl
      rw [hb, List.getD_eq_getElem?_getD, List.getElem?_replicate, if_pos hi2] at he
      simp at he
    · intro i hi
      have hi2 : i < cap := by simpa using hi
      have hb : Timer.bucketAt ⟨List.replicate cap [], now, g, 0⟩ i =
          (List.replicate cap ([] : List (TimerItem T))).getD i [] := rfl
      rw [hb, List.getD_eq_getElem?_getD, List.getElem?_replicate, if_pos hi2]
      simp
  · intro s time item s' hInv h
    have := (Timer.add_spec hInv h).1
    exact ⟨this.2.2.2.1, this.2.2.2.2⟩
  · intro s time sel hInv
    have := Timer.remove_inv hInv time sel
    exact ⟨this.2.2.2.1, this.2.2.2.2⟩
  · intro s u p s' hInv h
    obtain ⟨p0, s0, heq, hInv0, _, _⟩ := Timer.takeNext_spec hInv u
    rw [heq, Option.some_inj] at h
    have hp : p0 = p ∧ s0 = s' := by
      constructor
      · exact congrArg Prod.fst h
      · exact congrArg Prod.snd h
    rw [← hp.2]
    exact ⟨hInv0.2.2.2.1, hInv0.2.2.2.2⟩
  · intro s u out s' hInv h
    obtain ⟨out0, s0, heq, hInv0, _, _⟩ := Timer.takeUntil_spec hInv u
    rw [heq, Option.some_inj] at h
    have hp : s0 = s' := congrArg Prod.snd h
    rw [← hp]
    exact ⟨hInv0.2.2.2.1, hInv0.2.2.2.2⟩

theorem c4_witness :
    Timer.Placed ((Timer.remove (⟨[[⟨0, 5⟩]], 0, 1, 0⟩ : Timer Nat) 0
        (fun x => x == 5)).2) ∧
      Timer.SortedBuckets ((Timer.remove (⟨[[⟨0, 5⟩]], 0, 1, 0⟩ : Timer Nat) 0
        (fun x => x == 5)).2) :=
  (c4_invariants_preserved (T := Nat)).2.2.1 ⟨[[⟨0, 5⟩]], 0, 1, 0⟩ 0
    (fun x => x == 5) (by decide)

/-- C5 (amended): on every wheel state satisfying the data-model
invariant, `take_next(until)` never fails the emptiness assertion
inside `tick` (modelled by the result being `some`); it returns the
payload of an earliest-due stored entry whenever the earliest due time
`m` satisfies `m ≤ until` and, in addition, `m < until`, or `m` lies in
the current cursor bucket (`m < now + granularity`), or `m` is not
exactly at the start boundary of its bucket
(`now + delta(m)·granularity < m`); and it returns nothing when no
stored entry is due at or before `until`.  The original claim — that an
earliest-due entry is returned whenever `m ≤ until` — is refuted by
`c5_take_next_boundary_counterexample`: an entry due exactly at `until`
is missed when `until` falls exactly on its bucket's start boundary,
because the loop guard `until > now + granularity` is strict. -/
theorem c5_take_next_amended {T : Type} {s : Timer T} (hInv : Timer.Inv s) (u : Nat) :
    ∃ p s', Timer.takeNext s u = some (p, s') ∧
      (∀ e0 ∈ Timer.storedEntries s,
        (∀ e ∈ Timer.storedEntries s, e0.time ≤ e.time) → e0.time ≤ u →
        (e0.time < u ∨ e0.time < s.now + s.granularity ∨
          s.now + s.delta e0.time * s.granularity < e0.time) →
        ∃ e1 ∈ Timer.storedEntries s,
          (∀ e ∈ Timer.storedEntries s, e1.time ≤ e.time) ∧
            e1.time ≤ u ∧ p = some e1.item) ∧
      ((∀ e ∈ Timer.storedEntries s, u < e.time) → p = none) := by
  obtain ⟨p, s', h1, _, h3, h4⟩ := Timer.takeNext_spec hInv u
  exact ⟨p, s', h1, h3, h4⟩

/-- C5 counterexample: the wheel built by `new(0, 10, 10)` followed by
`add(10, 99)` stores one entry due exactly 10 — the earliest — yet
`take_next(10)` returns nothing and leaves the wheel unchanged, even
though that entry's due time is at (hence at-or-before) `until = 10`. -/
theorem c5_take_next_boundary_counterexample :
    (Timer.new Nat 0 10 10).bind (fun s0 => Timer.add s0 10 99) =
      some ⟨[[], [⟨10, 99⟩], [], [], [], [], [], [], [], []], 0, 10, 0⟩ ∧
    Timer.Inv (⟨[[], [⟨10, 99⟩], [], [], [], [], [], [], [], []], 0, 10, 0⟩ :
      Timer Nat) ∧
    Timer.storedEntries (⟨[[], [⟨10, 99⟩], [], [], [], [], [], [], [], []], 0, 10, 0⟩ :
      Timer Nat) = [⟨10, 99⟩] ∧
    Timer.takeNext (⟨[[], [⟨10, 99⟩], [], [], [], [], [], [], [], []], 0, 10, 0⟩ :
        Timer Nat) 10 =
      some (none, ⟨[[], [⟨10, 99⟩], [], [], [], [], [], [], [], []], 0, 10, 0⟩) := by
  refine ⟨by decide, by decide, by decide, by decide⟩

theorem c5_witness :
    ∃ p s', Timer.takeNext (⟨[[⟨1, 10⟩], [⟨2, 20⟩]], 1, 1, 0⟩ : Timer Nat) 2 =
        some (p, s') ∧
      (∀ e0 ∈ Timer.storedEntries (⟨[[⟨1, 10⟩], [⟨2, 20⟩]], 1, 1, 0⟩ : Timer Nat),
        (∀ e ∈ Timer.storedEntries (⟨[[⟨1, 10⟩], [⟨2, 20⟩]], 1, 1, 0⟩ : Timer Nat),
          e0.time ≤ e.time) → e0.time ≤ 2 →
        (e0.time < 2 ∨ e0.time < (⟨[[⟨1, 10⟩], [⟨2, 20⟩]], 1, 1, 0⟩ : Timer Nat).now +
            (⟨[[⟨1, 10⟩], [⟨2, 20⟩]], 1, 1, 0⟩ : Timer Nat).granularity ∨
          (⟨[[⟨1, 10⟩], [⟨2, 20⟩]], 1, 1, 0⟩ : Timer Nat).now +
            (⟨[[⟨1, 10⟩], [⟨2, 20⟩]], 1, 1, 0⟩ : Timer Nat).delta e0.time *
              (⟨[[⟨1, 10⟩], [⟨2, 20⟩]], 1, 1, 0⟩ : Timer Nat).granularity < e0.time) →
        ∃ e1 ∈ Timer.storedEntries (⟨[[⟨1, 10⟩], [⟨2, 20⟩]], 1, 1, 0⟩ : Timer Nat),
          (∀ e ∈ Timer.storedEntries (⟨[[⟨1, 10⟩], [⟨2, 20⟩]], 1, 1, 0⟩ : Timer Nat),
            e1.time ≤ e.time) ∧ e1.time ≤ 2 ∧ p = some e1.item) ∧
      ((∀ e ∈ Timer.storedEntries (⟨[[⟨1, 10⟩], [⟨2, 20⟩]], 1, 1, 0⟩ : Timer Nat),
        2 < e.time) → p = none) :=
  c5_take_next_amended (by decide) 2


/-- C6: `remove(time, selector)` removes at most one entry per call:
either it returns nothing and the wheel is unchanged, or it returns the
payload of exactly one removed entry, whose due time is exactly `time`
and whose payload satisfies the selector; and when no stored entry at
that time satisfies the selector it returns nothing and leaves the
entire wheel state unchanged. -/
theorem c6_remove_at_most_one {T : Type} (s : Timer T) (time : Nat) (sel : T → Bool) :
    ((Timer.remove s time sel).1 = none → (Timer.remove s time sel).2 = s) ∧
      (∀ x, (Timer.remove s time sel).1 = some x →
        ∃ e ∈ Timer.storedEntries s, e.time = time ∧ sel e.item = true ∧ x = e.item ∧
          (Timer.storedEntries s).Perm
            (e :: Timer.storedEntries (Timer.remove s time sel).2)) ∧
      ((∀ e ∈ Timer.storedEntries s, e.time = time → sel e.item = false) →
        Timer.remove s time sel = (none, s)) := by
  have hc := Timer.remove_cases s time sel
  have hsome : ∀ x, (Timer.remove s time sel).1 = some x →
      ∃ e ∈ Timer.storedEntries s, e.time = time ∧ sel e.item = true ∧ x = e.item ∧
        (Timer.storedEntries s).Perm
          (e :: Timer.storedEntries (Timer.remove s time sel).2) := by
    intro x hx
    obtain ⟨idx, e, hget, _, _, _, _⟩ := hc.2 x hx
    have hlen : 0 < s.items.length := by
      refine @Timer.bucket_nonempty_len_pos T s
        ((s.cursor + s.delta time) % s.items.length) ?_
      intro habs
      rw [habs] at hget
      simp at hget
    obtain ⟨e2, ht2, hs2, hx2, hperm⟩ := Timer.remove_some_perm hlen hx
    have hmem : e2 ∈ Timer.storedEntries s := hperm.mem_iff.mpr (List.mem_cons_self _ _)
    exact ⟨e2, hmem, ht2, hs2, hx2, hperm⟩
  refine ⟨hc.1, hsome, ?_⟩
  intro hall
  cases hx : (Timer.remove s time sel).1 with
  | none =>
    have h2 := hc.1 hx
    have h3 : Timer.remove s time sel =
        ((Timer.remove s time sel).1, (Timer.remove s time sel).2) := rfl
    rw [h3, hx, h2]
  | some x =>
    exfalso
    obtain ⟨e2, hmem, ht2, hs2, _, _⟩ := hsome x hx
    have := hall e2 hmem ht2
    rw [this] at hs2
    cases hs2

theorem c6_witness :
    Timer.remove (⟨[[⟨0, 5⟩]], 0, 1, 0⟩ : Timer Nat) 0 (fun x => x == 9) =
      (none, (⟨[[⟨0, 5⟩]], 0, 1, 0⟩ : Timer Nat)) :=
  (c6_remove_at_most_one ⟨[[⟨0, 5⟩]], 0, 1, 0⟩ 0 (fun x => x == 9)).2.2 (by decide)

/-- C7: on an invariant-satisfying wheel, `add(t, x)` followed
immediately by `remove(t, fun y => y = x)` returns `x` and leaves the
wheel holding the same multiset of stored entries as before the
`add`. -/
theorem c7_add_remove_round_trip {T : Type} [DecidableEq T] {s : Timer T} {t : Nat}
    {x : T} {s1 : Timer T} (hInv : Timer.Inv s) (hadd : Timer.add s t x = some s1) :
    (Timer.remove s1 t (fun y => decide (y = x))).1 = some x ∧
      (Timer.storedEntries (Timer.remove s1 t (fun y => decide (y = x))).2).Perm
        (Timer.storedEntries s) := by
  obtain ⟨hInv1, hg1, hlen1, hperm1, hle⟩ := Timer.add_spec hInv hadd
  obtain ⟨hlen1p, hg1p, hcur1, hplaced1, hsorted1⟩ := hInv1
  have hInv1b : Timer.Inv s1 := ⟨hlen1p, hg1p, hcur1, hplaced1, hsorted1⟩
  have hmem : (⟨t, x⟩ : TimerItem T) ∈ Timer.storedEntries s1 :=
    hperm1.mem_iff.mpr (List.mem_cons_self _ _)
  have hrot := Timer.mem_stored_rot hInv1b hmem
  have hbmem : (⟨t, x⟩ : TimerItem T) ∈
      s1.bucketAt ((s1.cursor + s1.delta t) % s1.items.length) := hrot.2.1
  have hbilt : (s1.cursor + s1.delta t) % s1.items.length < s1.items.length :=
    Nat.mod_lt _ hlen1p
  have hsb := hsorted1 _ hbilt
  rcases List.mem_iff_getElem.mp hbmem with ⟨k, hk, hkv⟩
  have hex : ∃ k2, ∃ hk2 : k2 <
      (s1.bucketAt ((s1.cursor + s1.delta t) % s1.items.length)).length,
      ((s1.bucketAt ((s1.cursor + s1.delta t) % s1.items.length))[k2]).time = t ∧
      (fun y => decide (y = x))
        ((s1.bucketAt ((s1.cursor + s1.delta t) % s1.items.length))[k2]).item = true :=
    ⟨k, hk, by rw [hkv], by rw [hkv]; exact decide_eq_true rfl⟩
  obtain ⟨idx, hhit⟩ := @Timer.removeHit_complete T
    (s1.bucketAt ((s1.cursor + s1.delta t) % s1.items.length)) t
    (fun y => decide (y = x)) hsb hex
  obtain ⟨hidxlt, hidxt, hidxsel⟩ := Timer.removeHit_some hhit
  have hxitem :
      ((s1.bucketAt ((s1.cursor + s1.delta t) % s1.items.length))[idx]).item = x :=
    of_decide_eq_true hidxsel
  have hr : Timer.remove s1 t (fun y => decide (y = x)) =
      (some (((s1.bucketAt ((s1.cursor + s1.delta t) % s1.items.length))[idx]).item),
        ⟨s1.items.set ((s1.cursor + s1.delta t) % s1.items.length)
            ((s1.bucketAt ((s1.cursor + s1.delta t) % s1.items.length)).eraseIdx idx),
          s1.now, s1.granularity, s1.cursor⟩) := by
    simp only [Timer.remove, hhit, List.getElem?_eq_getElem hidxlt]
  have hfst : (Timer.remove s1 t (fun y => decide (y = x))).1 = some x := by
    rw [hr, hxitem]
  obtain ⟨e2, ht2, hs2, hx2, hperm2⟩ := Timer.remove_some_perm hlen1p hfst
  have he2 : e2 = (⟨t, x⟩ : TimerItem T) := by
    have hitem : e2.item = x := of_decide_eq_true hs2
    cases e2
    simp only at ht2 hitem
    rw [ht2, hitem]
  rw [he2] at hperm2
  exact ⟨hfst, (hperm2.symm.trans hperm1).cons_inv⟩

theorem c7_witness :
    (Timer.remove (⟨[[⟨0, 7⟩]], 0, 1, 0⟩ : Timer Nat) 0
        (fun y => decide (y = 7))).1 = some 7 ∧
      (Timer.storedEntries (Timer.remove (⟨[[⟨0, 7⟩]], 0, 1, 0⟩ : Timer Nat) 0
          (fun y => decide (y = 7))).2).Perm
        (Timer.storedEntries (⟨[[]], 0, 1, 0⟩ : Timer Nat)) :=
  c7_add_remove_round_trip (by decide) (by decide)

/-- C8: when `add(time, item)` is called with `time` at or beyond
`now + span + (span - granularity)`, the fast-jump path runs: if any
bucket is non-empty the call is a fatal assertion failure (`none` in
the model); otherwise `now` becomes `time - (span - granularity)`,
`cursor` becomes 0, and the entry is stored without any further window
advance — the final state still has that `now` and `cursor`, and stores
exactly the new entry. -/
theorem c8_add_fast_jump {T : Type} {s : Timer T} (hInv : Timer.Inv s) {time : Nat}
    (item : T) (hfar : s.now + s.span + (s.span - s.granularity) ≤ time) :
    (¬ s.items.all List.isEmpty = true → Timer.add s time item = none) ∧
      (s.items.all List.isEmpty = true →
        ∃ s', Timer.add s time item = some s' ∧
          s'.now = time - (s.span - s.granularity) ∧ s'.cursor = 0 ∧
          Timer.storedEntries s' = [⟨time, item⟩]) := by
  obtain ⟨hlen, hg, hcur, hplaced, hsorted⟩ := hInv
  have hInv2 : Timer.Inv s := ⟨hlen, hg, hcur, hplaced, hsorted⟩
  have hgs : s.granularity ≤ s.span := by
    rw [Timer.span]
    exact Nat.le_mul_of_pos_right _ hlen
  have hlt : ¬ time < s.now := by omega
  constructor
  · intro hne
    have hfj : Timer.fastJump s time = none := by
      rw [Timer.fastJump, if_pos hfar, if_neg hne]
    rw [Timer.add, if_neg hlt, hfj]
  · intro hemp
    have hfj : Timer.fastJump s time =
        some ⟨s.items, time - (s.span - s.granularity), s.granularity, 0⟩ := by
      rw [Timer.fastJump, if_pos hfar, if_pos hemp]
    have hInvF := Timer.fastJump_spec hInv2 hfj
    have hcond : ¬ ((⟨s.items, time - (s.span - s.granularity), s.granularity, 0⟩ :
        Timer T).now + (⟨s.items, time - (s.span - s.granularity), s.granularity, 0⟩ :
        Timer T).span ≤ time) := by
      show ¬ (time - (s.span - s.granularity) + s.granularity * s.items.length ≤ time)
      have hsp : s.granularity * s.items.length = s.span := rfl
      rw [hsp]
      omega
    have haddt : Timer.addTicks
        (time - (⟨s.items, time - (s.span - s.granularity), s.granularity, 0⟩ :
          Timer T).now + 1)
        ⟨s.items, time - (s.span - s.granularity), s.granularity, 0⟩ time =
        some ⟨s.items, time - (s.span - s.granularity), s.granularity, 0⟩ := by
      rw [Timer.addTicks, if_neg hcond]
    have hle2 : (⟨s.items, time - (s.span - s.granularity), s.granularity, 0⟩ :
        Timer T).now ≤ time := Nat.sub_le _ _
    have hw2 : time < (⟨s.items, time - (s.span - s.granularity), s.granularity, 0⟩ :
        Timer T).now + (⟨s.items, time - (s.span - s.granularity), s.granularity,
        0⟩ : Timer T).span := by
      show time < time - (s.span - s.granularity) + s.granularity * s.items.length
      have hsp : s.granularity * s.items.length = s.span := rfl
      rw [hsp]
      omega
    obtain ⟨r1, r2, r3, r4, r5, r6⟩ := Timer.insertAt_spec hInvF.1 hle2 hw2
    refine ⟨Timer.insertAt ⟨s.items, time - (s.span - s.granularity), s.granularity, 0⟩
      time item, ?_, ?_, ?_, ?_⟩
    · simp only [Timer.add, if_neg hlt, hfj, haddt]
    · rw [r4]
    · rw [r5]
    · have hef : Timer.storedEntries (⟨s.items, time - (s.span - s.granularity),
          s.granularity, 0⟩ : Timer T) = [] := (Timer.all_empty_buckets hemp).2
      rw [hef] at r6
      exact List.perm_singleton.mp r6

theorem c8_witness :
    ∃ s', Timer.add (⟨[[], []], 0, 1, 0⟩ : Timer Nat) 5 7 = some s' ∧
      s'.now = 5 - ((⟨[[], []], 0, 1, 0⟩ : Timer Nat).span -
        (⟨[[], []], 0, 1, 0⟩ : Timer Nat).granularity) ∧
      s'.cursor = 0 ∧ Timer.storedEntries s' = [⟨5, 7⟩] :=
  (c8_add_fast_jump (by decide) 7 (by decide)).2 (by decide)

/-- C9: for every invariant-satisfying wheel and every `time` at or
beyond `now + span`, `remove(time, selector)` performs no tick or
window advance, finds no match, returns nothing, and leaves the wheel
completely unchanged. -/
theorem c9_remove_outside_window {T : Type} {s : Timer T} (hInv : Timer.Inv s)
    {time : Nat} (hout : s.now + s.span ≤ time) (sel : T → Bool) :
    Timer.remove s time sel = (none, s) := by
  obtain ⟨hlen, hg, hcur, hplaced, hsorted⟩ := hInv
  have hbilt : (s.cursor + s.delta time) % s.items.length < s.items.length :=
    Nat.mod_lt _ hlen
  have hnone : Timer.removeHit
      (s.bucketAt ((s.cursor + s.delta time) % s.items.length)) time sel = none := by
    cases hbs : Timer.binSearch time
        (Timer.times (s.bucketAt ((s.cursor + s.delta time) % s.items.length))) with
    | notFound ins => simp only [Timer.removeHit, hbs]
    | found m =>
      exfalso
      have hf := Timer.binSearch_found hbs
      have hmb : m < (s.bucketAt ((s.cursor + s.delta time) % s.items.length)).length := by
        have := hf.1
        rwa [Timer.times, List.length_map] at this
      have htv : ((s.bucketAt ((s.cursor + s.delta time) % s.items.length))[m]).time =
          time := by
        have := hf.2
        rwa [Timer.times_getD hmb] at this
      have hmemb := List.getElem_mem hmb
      have := (hplaced _ hbilt _ hmemb).2.1
      omega
  simp only [Timer.remove, hnone]

theorem c9_witness :
    Timer.remove (⟨[[⟨0, 5⟩]], 0, 1, 0⟩ : Timer Nat) 9 (fun _ => true) =
      (none, (⟨[[⟨0, 5⟩]], 0, 1, 0⟩ : Timer Nat)) :=
  c9_remove_outside_window (by decide) (by decide) (fun _ => true)

/-- C10 (frame): `remove` never modifies `now`, `cursor` or
`granularity`, and never ticks; when it returns a payload, exactly one
entry has been removed from exactly one bucket (the one addressed by
the time delta), every other bucket is unchanged, and the affected
bucket keeps its other entries in their original relative order (it is
the original bucket with one index erased). -/
theorem c10_remove_frame {T : Type} (s : Timer T) (time : Nat) (sel : T → Bool) :
    (Timer.remove s time sel).2.now = s.now ∧
    (Timer.remove s time sel).2.granularity = s.granularity ∧
    (Timer.remove s time sel).2.cursor = s.cursor ∧
    ((Timer.remove s time sel).1 = none → (Timer.remove s time sel).2 = s) ∧
    (∀ x, (Timer.remove s time sel).1 = some x →
      ∃ idx, idx < (s.bucketAt ((s.cursor + s.delta time) % s.items.length)).length ∧
        Timer.bucketAt (Timer.remove s time sel).2
            ((s.cursor + s.delta time) % s.items.length) =
          (s.bucketAt ((s.cursor + s.delta time) % s.items.length)).eraseIdx idx ∧
        (∀ j, j ≠ (s.cursor + s.delta time) % s.items.length →
          Timer.bucketAt (Timer.remove s time sel).2 j = s.bucketAt j)) := by
  have hc := Timer.remove_cases s time sel
  cases hx : (Timer.remove s time sel).1 with
  | none =>
    have h2 := hc.1 hx
    rw [h2]
    refine ⟨rfl, rfl, rfl, fun _ => rfl, ?_⟩
    intro x hx2
    cases hx2
  | some x0 =>
    obtain ⟨idx, e, hget, _, _, _, hstate⟩ := hc.2 x0 hx
    have hlen : 0 < s.items.length := by
      refine @Timer.bucket_nonempty_len_pos T s
        ((s.cursor + s.delta time) % s.items.length) ?_
      intro habs
      rw [habs] at hget
      simp at hget
    have hbilt : (s.cursor + s.delta time) % s.items.length < s.items.length :=
      Nat.mod_lt _ hlen
    obtain ⟨hidxlt, _⟩ := List.getElem?_eq_some_iff.mp hget
    rw [hstate]
    refine ⟨rfl, rfl, rfl, ?_, ?_⟩
    · intro h
      cases h
    · intro x hx2
      refine ⟨idx, hidxlt, ?_, ?_⟩
      · show (s.items.set ((s.cursor + s.delta time) % s.items.length)
            ((s.bucketAt ((s.cursor + s.delta time) % s.items.length)).eraseIdx
              idx)).getD ((s.cursor + s.delta time) % s.items.length) [] = _
        exact Timer.getD_set_self _ _ _ _ hbilt
      · intro j hj
        show (s.items.set ((s.cursor + s.delta time) % s.items.length)
            ((s.bucketAt ((s.cursor + s.delta time) % s.items.length)).eraseIdx
              idx)).getD j [] = _
        exact Timer.getD_set_ne _ _ _ (fun habs => hj habs.symm)

theorem c10_witness :
    (Timer.remove (⟨[[⟨0, 5⟩]], 0, 1, 0⟩ : Timer Nat) 0 (fun x => x == 9)).2 =
      (⟨[[⟨0, 5⟩]], 0, 1, 0⟩ : Timer Nat) :=
  (c10_remove_frame ⟨[[⟨0, 5⟩]], 0, 1, 0⟩ 0 (fun x => x == 9)).2.2.2.1 (by decide)
